import Mathlib

/-!
Verification of the Loom bounded-execution control plane.

Shallow embedding of `src/lib/chunking.py`, `src/lib/complexity.py`,
`src/lib/recursive_spawn.py`, `src/lib/unbounded_output.py`,
`src/lib/cost_tracker.py` and `src/lib/validation.py`.

Modelling conventions:
- Python `str` used as *text being scanned* is modelled as `List Char`;
  identifiers and dictionary keys are modelled as `String` or `List Char`
  as convenient for the functions that consume them.
- Python `int` is `Nat` (all quantities here are non-negative);
  Python `float` arithmetic (the chars-per-token ratio) is modelled
  exactly over `ℚ`, with Python `int(...)` as the floor.
- Python exceptions (`ValueError` from `max()` on an empty sequence,
  `AttributeError` from `.extend`/`.update` on a non-list/non-dict,
  unbounded recursion) are modelled by `Option`/fuel: `none` means the
  Python code raises instead of returning.
- `datetime.now()` timestamps are omitted from the embedded records:
  no validated property depends on them.
-/

namespace Loom
/-! ## Generic list-of-char helpers (Python string primitives) -/

/-- `text[a:b]` on a Python string (clamping, as Python slices do). -/
def slice (s : List Char) (a b : Nat) : List Char :=
  (s.drop a).take (b - a)

/-- Python `pat in s` (substring containment). -/
def containsSub (pat : List Char) : List Char → Bool
  | [] => pat.isEmpty
  | s@(_ :: t) => pat.isPrefixOf s || containsSub pat t

/-- Python `s.split(chr)` restricted to the newline separator:
`content.split(sep)` always yields at least one element. -/
def splitOnChar (sep : Char) : List Char → List (List Char)
  | [] => [[]]
  | c :: t =>
    if c = sep then [] :: splitOnChar sep t
    else
      match splitOnChar sep t with
      | [] => [[c]]
      | h :: r => (c :: h) :: r

/-- `abs (x - y)` on Python ints, both non-negative here. -/
def natDist (x y : Nat) : Nat := if y ≤ x then x - y else y - x

/-- ASCII lowering; Python `str.lower()` restricted to ASCII, which is all
the validator's fixed patterns use. -/
def lowerChar (c : Char) : Char :=
  if 'A' ≤ c ∧ c ≤ 'Z' then Char.ofNat (c.toNat + 32) else c

def lowerStr (s : List Char) : List Char := s.map lowerChar

/-! ## `cost_tracker.py` : `CostTracker.estimate_tokens` -/

/-- `int(len(text) / 1.3)` (`CHAR_TO_TOKEN_MULTIPLIER = 1.3`), computed
exactly: `⌊10·len/13⌋`. -/
def estimate_tokens (text : List Char) : Nat :=
  10 * text.length / 13

/-! ## `unbounded_output.py` : `UnboundedOutputHandler` -/

/-- `OutputPart` record from `unbounded_output.py`. -/
structure OutputPart where
  part_number : Nat
  start_line : Nat
  end_line : Nat
  line_count : Nat
  file_path : String
  deriving Repr, DecidableEq

/-- `LINES_PER_PART = 10_000`. -/
def LINES_PER_PART : Nat := 10000

/-- `THRESHOLD_LINES = 10_000`. -/
def THRESHOLD_LINES : Nat := 10000

/-- `should_handle`: `content.count('\n') + 1 > THRESHOLD_LINES`. -/
def should_handle (content : List Char) : Bool :=
  content.count '\n' + 1 > THRESHOLD_LINES

/-- The part-metadata loop of `split_output` over the already-split line
list: for `part_num in range(num_parts)` build the `OutputPart` records
(1-indexed inclusive line ranges, `line_count = len(part_lines)`). -/
def splitParts (base_path base_filename : String) (lines : List (List Char)) :
    List OutputPart :=
  let total_lines := lines.length
  let num_parts := (total_lines + LINES_PER_PART - 1) / LINES_PER_PART
  (List.range num_parts).map fun part_num =>
    let start_line := part_num * LINES_PER_PART
    let end_line := min ((part_num + 1) * LINES_PER_PART) total_lines
    let part_lines := (lines.drop start_line).take (end_line - start_line)
    { part_number := part_num + 1
      start_line := start_line + 1
      end_line := end_line
      line_count := part_lines.length
      file_path := base_path ++ "/" ++ base_filename ++ "_part_" ++
        toString (part_num + 1) ++ ".py" }

/-- Header text prepended to each part (`_create_part_header`). -/
def create_part_header (part : OutputPart) (total_parts : Nat)
    (task_id : String) : List Char :=
  ("# Part " ++ toString part.part_number ++ " of " ++ toString total_parts ++
    "\n# Task: " ++ task_id ++
    "\n# Lines: " ++ toString part.start_line ++ " - " ++
    toString part.end_line ++
    "\n# See index file for navigation\n\n").toList

/-- `split_output(task_id, content, base_filename)`: splits on `'\n'`,
returns the created `(path, content-with-header)` pairs together with
the recorded `self.parts` metadata. -/
def split_output (base_path : String) (task_id : String) (content : List Char)
    (base_filename : Option String := none) :
    List (String × List Char) × List OutputPart :=
  let base := base_filename.getD task_id
  let lines := splitOnChar '\n' content
  let total_lines := lines.length
  let num_parts := (total_lines + LINES_PER_PART - 1) / LINES_PER_PART
  let parts := splitParts base_path base lines
  let files := parts.map fun part =>
    let part_lines := (lines.drop (part.start_line - 1)).take
      (part.end_line - (part.start_line - 1))
    (part.file_path,
      create_part_header part num_parts task_id ++
        List.intercalate ['\n'] part_lines)
  (files, parts)

/-! ## `validation.py` : `LoomRLMValidator`

Regex scanning is embedded as explicit scanners over `List Char`.  All of
the validator's patterns use only literal text, the classes `\w`/`\s`/
`[a-z_]`/`[0-9]` and the anchor `\b`; each adjacent pair of variable-width
pieces draws from disjoint character classes followed by a literal, so the
greedy, non-backtracking scanners below implement the regexes exactly
(on the ASCII character classes Python's patterns are written for). -/

/-- Python `\w` (ASCII scope). -/
def isWordChar (c : Char) : Bool := c.isAlphanum || c = '_'

/-- Python `\s` (ASCII scope). -/
def isSpaceChar (c : Char) : Bool :=
  c = ' ' || c = '\t' || c = '\n' || c = '\r' || c = '\x0b' || c = '\x0c'

/-- Python `str.strip()`. -/
def pyStrip (s : List Char) : List Char :=
  ((s.dropWhile isSpaceChar).reverse.dropWhile isSpaceChar).reverse

/-- Scan every position of the text (including the end position); at each,
`matchAt` sees the previous character and the remaining suffix. -/
def scanFrom (matchAt : Option Char → List Char → Bool) :
    Option Char → List Char → Bool
  | prev, [] => matchAt prev []
  | prev, c :: t => matchAt prev (c :: t) || scanFrom matchAt (some c) t

def scan (matchAt : Option Char → List Char → Bool) (s : List Char) : Bool :=
  scanFrom matchAt none s

/-- `\b` before a word-character-initial pattern. -/
def boundaryB : Option Char → Bool
  | none => true
  | some c => !isWordChar c

/-- `\b<lit>` at one position (`lit` starts with a word character). -/
def mBoundedLit (lit : List Char) (prev : Option Char) (s : List Char) :
    Bool :=
  boundaryB prev && lit.isPrefixOf s

/-- `\bimport\s+` at one position. -/
def mImportAt (prev : Option Char) (s : List Char) : Bool :=
  boundaryB prev && "import".toList.isPrefixOf s &&
    (match (s.drop 6).head? with
     | some c => isSpaceChar c
     | none => false)

/-- `\bfrom\s+\w+\s+import\b` at one position. -/
def mFromImportAt (prev : Option Char) (s : List Char) : Bool :=
  boundaryB prev && "from".toList.isPrefixOf s &&
    (let r1 := s.drop 4
     let r2 := r1.dropWhile isSpaceChar
     let r3 := r2.dropWhile isWordChar
     let r4 := r3.dropWhile isSpaceChar
     decide (r2.length < r1.length) && decide (r3.length < r2.length) &&
     decide (r4.length < r3.length) && "import".toList.isPrefixOf r4 &&
       (match (r4.drop 6).head? with
        | some c => !isWordChar c
        | none => true))

/-- `DANGEROUS_PATTERNS`, each with its match scanner, in source order. -/
def dangerousChecks : List (String × (List Char → Bool)) :=
  [("\\bimport\\s+", scan mImportAt),
   ("\\bfrom\\s+\\w+\\s+import\\b", scan mFromImportAt),
   ("__import__\\(", containsSub "__import__(".toList),
   ("\\bexec\\(", scan (mBoundedLit "exec(".toList)),
   ("\\beval\\(", scan (mBoundedLit "eval(".toList)),
   ("os\\.system\\(", containsSub "os.system(".toList),
   ("subprocess\\.", containsSub "subprocess.".toList),
   ("\\bopen\\(", scan (mBoundedLit "open(".toList))]

def ALLOWED_PATCH_ACTIONS : List String :=
  ["add_context", "update_task", "add_task", "remove_task", "update_intent"]

def VALID_ROLES : List String :=
  ["researcher", "architect", "coder", "reviewer", "data_analyst",
   "documenter", "debugger"]

def dangerous_prefixes : List (List Char) :=
  ["/etc", "/usr", "/var", "~/", "/System", "/Library"].map String.toList

def forbidden_patterns : List (List Char) :=
  [".claude/", ".github/workflows/", ".gitlab-ci", "ci/cd", ".env",
   "credentials"].map String.toList

def isLowerAZ (c : Char) : Bool := 'a' ≤ c && c ≤ 'z'

/-- Full match of `^loom-rlm/outputs/[a-z_]+_[0-9]+\.py$`. -/
def matchOutputPath (p : List Char) : Bool :=
  "loom-rlm/outputs/".toList.isPrefixOf p &&
    (let r := (p.drop 17).reverse
     "yp.".toList.isPrefixOf r &&
       (let core := r.drop 3
        let digits := core.takeWhile Char.isDigit
        match core.dropWhile Char.isDigit with
        | '_' :: ra =>
          !digits.isEmpty && !ra.isEmpty &&
            ra.all (fun c => isLowerAZ c || c = '_')
        | _ => false))

/-- Full match of `^loom-rlm/compiled_v[0-9]+\.py$`. -/
def matchCompiledPath (p : List Char) : Bool :=
  "loom-rlm/compiled_v".toList.isPrefixOf p &&
    (let rest := p.drop 19
     let d := rest.takeWhile Char.isDigit
     !d.isEmpty && decide (rest.drop d.length = ".py".toList))

/-- `validate_file_path(file_path, path_type)`.
(Error messages abbreviate the Python f-strings; validity is exact.) -/
def validate_file_path (file_path : List Char)
    (path_type : String := "state") : Bool × String :=
  if containsSub "..".toList file_path then
    (false, "Path contains '..' (directory traversal attack)")
  else if dangerous_prefixes.any (fun pre => pre.isPrefixOf file_path) then
    (false, "Path targets system directory")
  else if forbidden_patterns.any
      (fun pat => containsSub pat (lowerStr file_path)) then
    (false, "Path contains forbidden pattern")
  else if path_type = "state" then
    if !("loom-rlm/".toList.isPrefixOf file_path) then
      (false, "State files must be within loom-rlm/")
    else (true, "")
  else if path_type = "output" then
    if !matchOutputPath file_path then
      (false, "Output file doesn't match required pattern")
    else (true, "")
  else if path_type = "compiled" then
    if !matchCompiledPath file_path then
      (false, "Compiled file doesn't match required pattern")
    else (true, "")
  else if path_type = "code" then
    if "/".toList.isPrefixOf file_path || "~".toList.isPrefixOf file_path then
      (false, "Code files must use relative paths within project")
    else (true, "")
  else (true, "")

/-- Issues from the `DANGEROUS_PATTERNS` loop (match counts in the
messages are abstracted away; the set of triggered patterns is exact). -/
def dangerousIssues (content : List Char) : List String :=
  (dangerousChecks.filter fun pc => pc.2 content).map
    (fun pc => "Dangerous pattern found: " ++ pc.1)

/-- `^[a-zA-Z_]\w*\s*=\s*` at the start of a stripped line. -/
def assignMatch : List Char → Bool
  | [] => false
  | c :: t =>
    (c.isAlpha || c = '_') &&
      ((t.dropWhile isWordChar).dropWhile isSpaceChar).head? = some '='

/-- The structured-data check: some line, after stripping, is not
skipped (empty / `#` / `class ` / docstring) and starts an assignment. -/
def hasAssignments (content : List Char) : Bool :=
  (splitOnChar '\n' content).any fun line =>
    let stripped := pyStrip line
    !(stripped.isEmpty || "#".toList.isPrefixOf stripped ||
        "class ".toList.isPrefixOf stripped ||
        "\"\"\"".toList.isPrefixOf stripped ||
        "'''".toList.isPrefixOf stripped) &&
      assignMatch stripped

def structuredDataIssues (content : List Char) : List String :=
  if hasAssignments content then [] else
    ["Content does not appear to be structured data"]

def required_fields : List String :=
  ["task_id", "iteration", "completed", "results"]

/-- `(?:^|\s)<field>\s*=|"<field>"\s*:` searched with `re.MULTILINE`
(`^` after a newline is subsumed by `\s`). -/
def fieldPresent (field : List Char) (content : List Char) : Bool :=
  scan (fun prev s =>
    (match prev with | none => true | some c => isSpaceChar c) &&
      field.isPrefixOf s &&
      ((s.drop field.length).dropWhile isSpaceChar).head? = some '=') content ||
  scan (fun _ s =>
    ('"' :: (field ++ ['"'])).isPrefixOf s &&
      ((s.drop (field.length + 2)).dropWhile isSpaceChar).head? = some ':')
    content

def missingFieldIssues (content : List Char) : List String :=
  (required_fields.filter fun f => !fieldPresent f.toList content).map
    (fun f => "Missing required field: " ++ f)

/-- Leftmost-match search: first position whose full-pattern match
succeeds. -/
def scanFirst {α : Type} (matchAt : List Char → Option α) :
    List Char → Option α
  | [] => matchAt []
  | s@(_ :: t) => (matchAt s).orElse fun _ => scanFirst matchAt t

/-- `completed\s*[=:]\s*(\w+)` at one position; returns the capture. -/
def completedAt (s : List Char) : Option (List Char) :=
  if "completed".toList.isPrefixOf s then
    match (s.drop 9).dropWhile isSpaceChar with
    | c :: r2 =>
      if c = '=' || c = ':' then
        let w := (r2.dropWhile isSpaceChar).takeWhile isWordChar
        if w.isEmpty then none else some w
      else none
    | [] => none
  else none

def completedIssues (content : List Char) : List String :=
  match scanFirst completedAt content with
  | some w =>
    if w = "True".toList || w = "False".toList || w = "true".toList ||
        w = "false".toList then []
    else ["'completed' must be True/False (or true/false)"]
  | none => []

/-- `validate_output_content(content)`: collects all issues in source
order; valid iff no issues. -/
def validate_output_content (content : List Char) : Bool × List String :=
  let issues := dangerousIssues content ++ structuredDataIssues content ++
    missingFieldIssues content ++ completedIssues content
  (issues.isEmpty, issues)

/-! ### Patch validation -/

/-- Kinds of Python values a patch field can hold, to the extent the
validator's `isinstance` checks distinguish them. -/
inductive PValue where
  | vstr (s : List Char)
  | vdict
  | vother
  deriving Repr, DecidableEq

structure PTask where
  id : Option String := none
  outputs_to : Option String := none
  deriving Repr, DecidableEq

/-- A patch dictionary, with exactly the keys `validate_patch` reads. -/
structure Patch where
  action : Option String := none
  key : Option String := none
  value : Option PValue := none
  task_id : Option String := none
  field_name : Option String := none
  task : Option PTask := none
  new_intent : Option PValue := none
  deriving Repr, DecidableEq

/-- Python truth test on an optional string: `None` and `""` are falsy. -/
def falsyStr : Option String → Bool
  | none => true
  | some s => s.isEmpty

/-- Full match of `^[a-zA-Z_][a-zA-Z0-9_]*$`. -/
def keyMatch : List Char → Bool
  | [] => false
  | c :: t => (c.isAlpha || c = '_') && t.all isWordChar

/-- `validate_patch(patch)` (messages abbreviated; validity exact). -/
def validate_patch (patch : Patch) : Bool × String :=
  let actionOk := match patch.action with
    | none => false
    | some a => ALLOWED_PATCH_ACTIONS.contains a
  if !actionOk then (false, "Invalid patch action")
  else if patch.action = some "add_context" then
    let key := (patch.key.getD "").toList
    if !keyMatch key then (false, "Invalid context key")
    else
      match patch.value with
      | some (.vstr v) =>
        let lv := lowerStr v
        if ["rm -rf", "curl", "wget", "sudo"].any
            (fun c => containsSub c.toList lv) then
          (false, "Context value contains shell command")
        else if ["http://", "https://", "ftp://"].any
            (fun pre => pre.toList.isPrefixOf lv) then
          (false, "Context value contains raw URL")
        else (true, "")
      | _ => (true, "")
  else if patch.action = some "update_task" then
    if falsyStr patch.task_id then (false, "update_task requires task_id")
    else if !(patch.field_name = some "description" ||
        patch.field_name = some "requires" ||
        patch.field_name = some "depends_on") then
      (false, "Invalid field for update_task")
    else (true, "")
  else if patch.action = some "add_task" then
    let task := patch.task.getD {}
    if falsyStr task.id then (false, "add_task requires task with 'id'")
    else
      let vr := validate_file_path (task.outputs_to.getD "").toList "output"
      if !vr.1 then (false, "Invalid outputs_to path") else (true, "")
  else if patch.action = some "remove_task" then
    if falsyStr patch.task_id then (false, "remove_task requires task_id")
    else (true, "")
  else if patch.action = some "update_intent" then
    match patch.new_intent.getD .vdict with
    | .vdict => (true, "")
    | _ => (false, "new_intent must be a dictionary")
  else (true, "")

/-! ## `complexity.py` : `ComplexityCalculator`

Scores are Python floats combined from the fixed literals `0.0/0.3/0.5/
0.6/0.8/1.0` and the four weights; all are exactly representable and the
arithmetic is modelled over `ℚ`. -/

structure CTask where
  id : String
  depends_on : List String := []
  requires : List String := []
  deriving Repr, DecidableEq

structure CompiledPrompt where
  tasks : List CTask := []
  original : List Char := []
  deriving Repr, DecidableEq

structure ComplexityScore where
  overall_score : ℚ
  max_iterations : Nat
  factors : List (String × ℚ)
  reasoning : List String
  deriving Repr, DecidableEq

def WEIGHT_TASK_COUNT : ℚ := 30 / 100
def WEIGHT_DEPENDENCY_DEPTH : ℚ := 30 / 100
def WEIGHT_INPUT_SIZE : ℚ := 20 / 100
def WEIGHT_TASK_DIVERSITY : ℚ := 20 / 100

def ITERATION_MAP : List (ℚ × ℚ × Nat) :=
  [(0, 3/10, 3), (3/10, 6/10, 5), (6/10, 8/10, 7), (8/10, 1, 10)]

/-- `_map_score_to_iterations`: first bin with `min ≤ score < max`, else
the edge-case fallback `ITERATION_MAP[-1][2]`. -/
def map_score_to_iterations (score : ℚ) : Nat :=
  match ITERATION_MAP.find?
      (fun b => decide (b.1 ≤ score) && decide (score < b.2.1)) with
  | some b => b.2.2
  | none => (ITERATION_MAP.getLastD (0, 0, 0)).2.2

/-- The `task_deps` dictionary (`dict` = association list, assignment
replaces the first binding of an existing key, else appends). -/
def lookupDeps : List (String × List String) → String → Option (List String)
  | [], _ => none
  | (k, v) :: t, x => if k = x then some v else lookupDeps t x

def setDeps : List (String × List String) → String → List String →
    List (String × List String)
  | [], k, v => [(k, v)]
  | (k', v') :: t, k, v =>
    if k' = k then (k, v) :: t else (k', v') :: setDeps t k v

/-- `get_level` from `_calculate_graph_depth`, with explicit fuel in place
of Python's unguarded recursion: `none` models a raised exception —
`ValueError` when every dependency of a task is an unknown id (Python's
`max()` on an empty generator), or `RecursionError`/non-termination when
the fuel runs out on a cyclic graph.  Memoization does not change the
returned value, only the running time, so it is not modelled. -/
def get_level (task_deps : List (String × List String)) :
    Nat → String → Option Nat
  | 0, _ => none
  | fuel + 1, task_id =>
    let deps := (lookupDeps task_deps task_id).getD []
    if deps.isEmpty then some 1
    else
      match deps.filter (fun d => (lookupDeps task_deps d).isSome) with
      | [] => none
      | known =>
        match known.mapM (get_level task_deps fuel) with
        | none => none
        | some levels => some (levels.foldl Nat.max 0 + 1)

/-- `_calculate_graph_depth`: level of every task, then the maximum. -/
def calculate_graph_depth (task_deps : List (String × List String)) :
    Option Nat :=
  if task_deps.isEmpty then some 0
  else
    match task_deps.mapM
        (fun kv => get_level task_deps (task_deps.length + 1) kv.1) with
    | none => none
    | some levels => some (levels.foldl Nat.max 0)

/-- `_calculate_task_count_score`. -/
def calculate_task_count_score (cp : CompiledPrompt) : ℚ × String :=
  let n := cp.tasks.length
  if n ≤ 2 then (0, "Task count: " ++ toString n ++ " tasks (simple)")
  else if n ≤ 5 then (1/2, "Task count: " ++ toString n ++ " tasks (moderate)")
  else if n ≤ 10 then (8/10, "Task count: " ++ toString n ++ " tasks (complex)")
  else (1, "Task count: " ++ toString n ++ " tasks (very complex)")

/-- `_calculate_dependency_depth_score` (propagates the graph-depth
exception). -/
def calculate_dependency_depth_score (cp : CompiledPrompt) :
    Option (ℚ × String) :=
  if cp.tasks.isEmpty then some (0, "No tasks to analyze")
  else
    let task_deps :=
      cp.tasks.foldl (fun acc t => setDeps acc t.id t.depends_on) []
    match calculate_graph_depth task_deps with
    | none => none
    | some depth =>
      let tag :=
        if depth ≤ 1 then "no dependencies"
        else if depth = 2 then "simple chain"
        else if depth = 3 then "moderate chain"
        else if depth = 4 then "complex chain"
        else "very complex chain"
      let score : ℚ :=
        if depth ≤ 1 then 0
        else if depth = 2 then 3/10
        else if depth = 3 then 6/10
        else if depth = 4 then 8/10
        else 1
      some (score,
        "Dependency depth: " ++ toString depth ++ " levels (" ++ tag ++ ")")

/-- `_calculate_input_size_score` (character count of `original`). -/
def calculate_input_size_score (cp : CompiledPrompt) : ℚ × String :=
  let char_count := cp.original.length
  let token_count := estimate_tokens cp.original
  let (score, tag) : ℚ × String :=
    if char_count < 10000 then (0, "small")
    else if char_count < 50000 then (3/10, "medium")
    else if char_count < 100000 then (6/10, "large")
    else if char_count < 200000 then (8/10, "very large")
    else (1, "massive")
  (score, "Input size: " ++ toString token_count ++ " tokens (" ++ tag ++ ")")

/-- `_calculate_task_diversity_score` (size of the union of `requires`). -/
def calculate_task_diversity_score (cp : CompiledPrompt) : ℚ × String :=
  if cp.tasks.isEmpty then (0, "No tasks to analyze")
  else
    let n := ((cp.tasks.map CTask.requires).flatten).dedup.length
    let (score, tag) : ℚ × String :=
      if n ≤ 1 then (0, "single focus")
      else if n = 2 then (3/10, "dual focus")
      else if n = 3 then (6/10, "diverse")
      else if n = 4 then (8/10, "very diverse")
      else (1, "highly diverse")
    (score, "Task diversity: " ++ toString n ++ " unique capabilities (" ++
      tag ++ ")")

/-- `ComplexityCalculator.calculate`; `none` when the dependency-depth
factor raises. -/
def calculate (cp : CompiledPrompt) : Option ComplexityScore :=
  let (tc, tcr) := calculate_task_count_score cp
  match calculate_dependency_depth_score cp with
  | none => none
  | some (dd, ddr) =>
    let (inp, inpr) := calculate_input_size_score cp
    let (dv, dvr) := calculate_task_diversity_score cp
    let overall := tc * WEIGHT_TASK_COUNT + dd * WEIGHT_DEPENDENCY_DEPTH +
      inp * WEIGHT_INPUT_SIZE + dv * WEIGHT_TASK_DIVERSITY
    some { overall_score := overall
           max_iterations := map_score_to_iterations overall
           factors := [("task_count", tc), ("dependency_depth", dd),
             ("input_size", inp), ("task_diversity", dv)]
           reasoning := [tcr, ddr, inpr, dvr] }

/-! ## `recursive_spawn.py` : `RecursiveSpawnManager`

The `spawn_tree` dict is an association list: assignment replaces the
first binding of an existing key and otherwise appends (Python dict
insertion order).  `spawned_at` timestamps are omitted. -/

structure SpawnNode where
  task_id : String
  parent_task_id : Option String
  depth : Nat
  role : String
  children : List String := []
  status : String := "pending"
  deriving Repr, DecidableEq

structure SpawnState where
  max_depth : Nat := 2
  auto_approve : Bool := true
  spawn_tree : List (String × SpawnNode) := []
  root_tasks : List String := []
  deriving Repr, DecidableEq

def lookupT : List (String × SpawnNode) → String → Option SpawnNode
  | [], _ => none
  | (k, v) :: t, x => if k = x then some v else lookupT t x

/-- Python `tree[k] = v`. -/
def setT : List (String × SpawnNode) → String → SpawnNode →
    List (String × SpawnNode)
  | [], k, v => [(k, v)]
  | (k', v') :: t, k, v =>
    if k' = k then (k, v) :: t else (k', v') :: setT t k v

/-- In-place mutation of the node bound to `k` (no-op when absent). -/
def modifyT : List (String × SpawnNode) → String →
    (SpawnNode → SpawnNode) → List (String × SpawnNode)
  | [], _, _ => []
  | (k', v') :: t, k, f =>
    if k' = k then (k', f v') :: t else (k', v') :: modifyT t k f

/-- `register_root_task`: idempotent, creates a depth-0 parentless node. -/
def register_root_task (s : SpawnState) (task_id role : String) :
    SpawnState :=
  if (lookupT s.spawn_tree task_id).isSome then s
  else
    let node : SpawnNode :=
      { task_id := task_id, parent_task_id := none, depth := 0, role := role }
    { s with
      spawn_tree := setT s.spawn_tree task_id node
      root_tasks :=
        if s.root_tasks.contains task_id then s.root_tasks
        else s.root_tasks ++ [task_id] }

/-- `can_spawn_child`. -/
def can_spawn_child (s : SpawnState) (parent_task_id : String) : Bool :=
  match lookupT s.spawn_tree parent_task_id with
  | none => false
  | some parent_node => decide (parent_node.depth < s.max_depth)

/-- `register_spawn`.  Python appends the child id to the fetched parent
*object*'s `children` and separately assigns the child node into the
dict; when the two ids coincide the assignment hides the mutated object.
Modifying the parent binding first and assigning the child second
reproduces exactly that observable behaviour. -/
def register_spawn (s : SpawnState)
    (parent_task_id child_task_id role : String) : Bool × SpawnState :=
  match lookupT s.spawn_tree parent_task_id with
  | none => (false, s)
  | some parent_node =>
    if !can_spawn_child s parent_task_id then (false, s)
    else
      let child_node : SpawnNode :=
        { task_id := child_task_id, parent_task_id := some parent_task_id,
          depth := parent_node.depth + 1, role := role }
      let tree1 := modifyT s.spawn_tree parent_task_id
        (fun n => { n with children := n.children ++ [child_task_id] })
      (true, { s with spawn_tree := setT tree1 child_task_id child_node })

/-- `update_status`. -/
def update_status (s : SpawnState) (task_id status : String) : SpawnState :=
  { s with
    spawn_tree := modifyT s.spawn_tree task_id
      (fun n => { n with status := status }) }

/-- The `while current_id is not None` walk of `get_spawn_path`, with fuel:
`none` models a `KeyError` (dangling parent pointer) or divergence (a
parent cycle outliving the fuel). -/
def pathAux (tree : List (String × SpawnNode)) :
    Nat → Option String → Option (List String)
  | 0, _ => none
  | _ + 1, none => some []
  | fuel + 1, some cid =>
    match lookupT tree cid with
    | none => none
    | some node => (pathAux tree fuel node.parent_task_id).map (cid :: ·)

/-- `get_spawn_path`: `[]` for an unknown id, otherwise the reversed
parent walk. -/
def get_spawn_path (s : SpawnState) (task_id : String) :
    Option (List String) :=
  if (lookupT s.spawn_tree task_id).isNone then some []
  else (pathAux s.spawn_tree (s.spawn_tree.length + 1) (some task_id)).map
    List.reverse

/-- States reachable from a fresh manager through `register_root_task`
and `register_spawn` calls whose child ids are not already in the tree
(claim C10's precondition). -/
inductive Reachable : SpawnState → Prop where
  | init (max_depth : Nat) (auto : Bool) :
      Reachable { max_depth := max_depth, auto_approve := auto,
                  spawn_tree := [], root_tasks := [] }
  | root (s : SpawnState) (tid role : String) : Reachable s →
      Reachable (register_root_task s tid role)
  | spawn (s : SpawnState) (pid cid role : String) : Reachable s →
      lookupT s.spawn_tree cid = none →
      Reachable (register_spawn s pid cid role).2

/-- Structural invariant of the spawn forest: parentless nodes sit at
depth 0, a parent pointer leads to a node one level up, and depths are
bounded by the tree size. -/
def TreeInvT (tree : List (String × SpawnNode)) : Prop :=
  ∀ id n, lookupT tree id = some n →
    (n.parent_task_id = none → n.depth = 0) ∧
    (∀ p, n.parent_task_id = some p →
      ∃ pn, lookupT tree p = some pn ∧ n.depth = pn.depth + 1) ∧
    n.depth < tree.length

/-! ### Witness state for C10 and claim C5 -/

/-- Demo spawn states for the `max_depth = 2` scenario. -/
def spawnDemo0 : SpawnState := register_root_task {} "root" "coder"

def spawnDemo1 : Bool × SpawnState :=
  register_spawn spawnDemo0 "root" "child" "coder"

def spawnDemo2 : Bool × SpawnState :=
  register_spawn spawnDemo1.2 "child" "grand" "coder"

/-! ## `chunking.py` : `ChunkingStrategy`

The chars-per-token ratio is a Python float; it is modelled exactly over
`ℚ` with `int(...)` as the floor.  The break-point regexes are the five
literal delimiters. -/

structure ChunkingConfig where
  chunk_size_tokens : Nat := 50000
  overlap_tokens : Nat := 5000
  strategy : String := "uniform"
  merge_strategy : String := "sequential"
  deriving Repr, DecidableEq

/-- `Chunk`, with its `metadata` dict flattened into fields. -/
structure Chunk where
  chunk_id : Nat
  content : List Char
  start_char : Nat
  end_char : Nat
  overlap_with_next : Nat
  estimated_tokens : Nat
  char_count : Nat
  is_first : Bool
  is_last : Bool
  deriving Repr, DecidableEq

def CHUNKING_THRESHOLD_TOKENS : Nat := 50000

def should_chunk (prompt : List Char) : Bool :=
  estimate_tokens prompt > CHUNKING_THRESHOLD_TOKENS

/-- `chars_per_token = total_chars / total_tokens if total_tokens > 0 else
1.3`. -/
def chars_per_token (prompt : List Char) : ℚ :=
  let total_tokens := estimate_tokens prompt
  if total_tokens > 0 then (prompt.length : ℚ) / (total_tokens : ℚ)
  else 13 / 10

/-- `chunk_size_chars = int(config.chunk_size_tokens * chars_per_token)`. -/
def chunk_size_chars (cfg : ChunkingConfig) (prompt : List Char) : Nat :=
  (⌊(cfg.chunk_size_tokens : ℚ) * chars_per_token prompt⌋).toNat

/-- `overlap_chars = int(config.overlap_tokens * chars_per_token)`. -/
def overlap_chars (cfg : ChunkingConfig) (prompt : List Char) : Nat :=
  (⌊(cfg.overlap_tokens : ℚ) * chars_per_token prompt⌋).toNat

/-- `re.finditer` of a literal non-empty pattern: start positions of the
left-to-right, non-overlapping matches.  The fuel only needs to exceed
the length of the scanned suffix. -/
def findIterAux (pat : List Char) : Nat → List Char → Nat → List Nat
  | 0, _, _ => []
  | _ + 1, [], _ => []
  | fuel + 1, s@(_ :: t), i =>
    if pat.isPrefixOf s then
      i :: findIterAux pat fuel (s.drop pat.length) (i + pat.length)
    else findIterAux pat fuel t (i + 1)

def findIter (pat s : List Char) : List Nat :=
  findIterAux pat (s.length + 1) s 0

/-- `break_patterns`, each with the offset added to a match start. -/
def break_patterns : List (List Char × Nat) :=
  [("\n\n".toList, 2), ("\n".toList, 1), (". ".toList, 2), (", ".toList, 2),
   (" ".toList, 1)]

/-- `search_start = max(0, target_pos - max_search // 2)`. -/
def searchStartOf (target_pos max_search : Nat) : Nat :=
  target_pos - max_search / 2

/-- `search_end = min(len(text), target_pos + max_search // 2)`. -/
def searchEndOf (textLen target_pos max_search : Nat) : Nat :=
  min textLen (target_pos + max_search / 2)

def searchRegion (text : List Char) (target_pos max_search : Nat) :
    List Char :=
  slice text (searchStartOf target_pos max_search)
    (searchEndOf text.length target_pos max_search)

def relativeTarget (target_pos max_search : Nat) : Nat :=
  target_pos - searchStartOf target_pos max_search

/-- One tier's matches in the window, as
`(match_pos, abs(match_pos - relative_target))` pairs in scan order. -/
def candidates (text : List Char) (target_pos max_search : Nat)
    (po : List Char × Nat) : List (Nat × Nat) :=
  (findIter po.1 (searchRegion text target_pos max_search)).map fun m =>
    (m + po.2, natDist (m + po.2) (relativeTarget target_pos max_search))

/-- One candidate of the inner `for match ...` loop: keep the strictly
closer one. -/
def updateBestStep (b : Option (Nat × Nat)) (pd : Nat × Nat) :
    Option (Nat × Nat) :=
  match b with
  | none => some pd
  | some (p0, d0) => if pd.2 < d0 then some pd else some (p0, d0)

/-- The inner `for match ...` loop of `_find_break_point`. -/
def updateBest (best : Option (Nat × Nat)) (cands : List (Nat × Nat)) :
    Option (Nat × Nat) :=
  cands.foldl updateBestStep best

/-- The outer `for pattern ...` loop of `_find_break_point`: after each
tier, return early when the best distance beats `max_search // 4`;
otherwise fall through and finally cut at the target. -/
def fbGo (text : List Char) (target_pos max_search : Nat) :
    List (List Char × Nat) → Option (Nat × Nat) → Nat
  | [], _ => target_pos
  | po :: rest, best =>
    match updateBest best (candidates text target_pos max_search po) with
    | some (p, d) =>
      if d < max_search / 4 then searchStartOf target_pos max_search + p
      else fbGo text target_pos max_search rest (some (p, d))
    | none => fbGo text target_pos max_search rest none

def find_break_point (text : List Char) (target_pos max_search : Nat) :
    Nat :=
  fbGo text target_pos max_search break_patterns none

/-- The adjusted cut of one loop iteration of `create_chunks`. -/
def cutOf (text : List Char) (csc : Nat) (start : Nat) : Nat :=
  let end0 := min (start + csc) text.length
  if end0 < text.length then find_break_point text end0 csc else end0

def overlapOf (text : List Char) (oc : Nat) (endc : Nat) : Nat :=
  if endc < text.length then oc else 0

def nextStartOf (text : List Char) (csc oc start : Nat) : Nat :=
  cutOf text csc start - overlapOf text oc (cutOf text csc start)

/-- The `while start_char < total_chars` loop, with fuel: `none` models
non-termination (never reached — claim C4). -/
def chunkLoop (text : List Char) (csc oc : Nat) :
    Nat → Nat → Nat → Option (List Chunk)
  | 0, _, _ => none
  | fuel + 1, start, cid =>
    if start < text.length then
      let endc := cutOf text csc start
      let chunk_content := slice text start endc
      let ov := overlapOf text oc endc
      let c : Chunk :=
        { chunk_id := cid, content := chunk_content, start_char := start,
          end_char := endc, overlap_with_next := ov,
          estimated_tokens := estimate_tokens chunk_content,
          char_count := chunk_content.length,
          is_first := cid == 0,
          is_last := decide (text.length ≤ endc) }
      (chunkLoop text csc oc fuel (endc - ov) (cid + 1)).map (c :: ·)
    else some []

def create_chunks (cfg : ChunkingConfig) (prompt : List Char) :
    Option (List Chunk) :=
  chunkLoop prompt (chunk_size_chars cfg prompt) (overlap_chars cfg prompt)
    (prompt.length + 1) 0 0

/-- The claim C7 shape of a chunk sequence: each non-final chunk's
`end_char - overlap_with_next` is the next chunk's `start_char`, and the
final chunk has `overlap_with_next = 0`. -/
def chainOK : List Chunk → Prop
  | [] => True
  | [c] => c.overlap_with_next = 0
  | c :: c' :: rest =>
    c.end_char - c.overlap_with_next = c'.start_char ∧ chainOK (c' :: rest)

/-- A chunk's content with its trailing declared overlap removed. -/
def dropOverlap (c : Chunk) : List Char :=
  c.content.take (c.content.length - c.overlap_with_next)

/-! ### `merge_chunk_results` data model -/

/-- Python values as far as the merge distinguishes them. -/
inductive CtxV where
  | vbool (b : Bool)
  | vint (n : Int)
  | vstr (s : String)
  | vlist (l : List CtxV)
  | vdict (d : List (String × CtxV))
  | vother

/-- A task dict, restricted to the keys the merge reads or writes (other
keys are carried through unchanged and are not modelled). -/
structure MTask where
  id : List Char
  depends_on : Option (List (List Char)) := none
  chunk_id : Option Nat := none
  chunk_context : Option (List Char) := none

/-- One chunk's compile result, with the `.get(..., default)` defaults. -/
structure ChunkResult where
  intent : CtxV := .vdict []
  tasks : List MTask := []
  context : List (String × CtxV) := []
  deliverables : List String := []

structure ChunkBoundary where
  chunk_id : Nat
  start_char : Nat
  end_char : Nat
  tokens : Nat

/-- The merged `CompiledPrompt` dict (`chunking_metadata` flattened). -/
structure MergedPrompt where
  version : Nat
  original : List Char
  intent : CtxV
  tasks : List MTask
  context : List (String × CtxV)
  deliverables : List String
  total_chunks : Nat
  meta_merge_strategy : String
  chunk_boundaries : List ChunkBoundary

/-- `merge_chunk_results` returns `{}` on empty input, a merged prompt
otherwise. -/
inductive MergeOut where
  | emptyDict
  | merged (m : MergedPrompt)

def lookupC : List (String × CtxV) → String → Option CtxV
  | [], _ => none
  | (k, v) :: t, x => if k = x then some v else lookupC t x

def setC : List (String × CtxV) → String → CtxV → List (String × CtxV)
  | [], k, v => [(k, v)]
  | (k', v') :: t, k, v =>
    if k' = k then (k, v) :: t else (k', v') :: setC t k v

/-- Python `dict.update`. -/
def dictUpdate (d upd : List (String × CtxV)) : List (String × CtxV) :=
  upd.foldl (fun acc kv => setC acc kv.1 kv.2) d

/-- One key of the context merge: first writer wins for scalars, lists
extend, dicts update; `none` models the `AttributeError` Python raises
when `.extend`/`.update` hits an existing value of the other shape. -/
def ctxMergeKey (ctx : List (String × CtxV)) (key : String) (v : CtxV) :
    Option (List (String × CtxV)) :=
  match lookupC ctx key with
  | none => some (setC ctx key v)
  | some old =>
    match v with
    | .vlist l =>
      match old with
      | .vlist l' => some (setC ctx key (.vlist (l' ++ l)))
      | _ => none
    | .vdict d =>
      match old with
      | .vdict d' => some (setC ctx key (.vdict (dictUpdate d' d)))
      | _ => none
    | _ => some ctx

def ctxMergeAll (ctx : List (String × CtxV))
    (items : List (String × CtxV)) : Option (List (String × CtxV)) :=
  items.foldlM (fun acc kv => ctxMergeKey acc kv.1 kv.2) ctx

/-- `task["id"] = f"chunk{chunk_idx}_{original_id}"`. -/
def prefixId (i : Nat) (x : List Char) : List Char :=
  "chunk".toList ++ (toString i).toList ++ "_".toList ++ x

/-- Dependency rewrite: references already starting with `chunk` are
left untouched. -/
def rewriteDep (i : Nat) (d : List Char) : List Char :=
  if "chunk".toList.isPrefixOf d then d else prefixId i d

/-- The per-task rewrite of chunk `i` of `total`. -/
def rewriteTask (i total : Nat) (t : MTask) : MTask :=
  { id := prefixId i t.id
    depends_on := t.depends_on.map (List.map (rewriteDep i))
    chunk_id := some i
    chunk_context := some (("Processes chunk " ++ toString (i + 1) ++ "/" ++
      toString total).toList) }

/-- One chunk of the merge fold: rewrite and append its tasks, merge its
context key-wise, extend the deliverables. -/
def mergeStep (total : Nat)
    (acc : List MTask × List (String × CtxV) × List String)
    (icr : Nat × ChunkResult) :
    Option (List MTask × List (String × CtxV) × List String) :=
  match ctxMergeAll acc.2.1 icr.2.context with
  | none => none
  | some ctx' =>
    some (acc.1 ++ icr.2.tasks.map (rewriteTask icr.1 total), ctx',
      acc.2.2 ++ icr.2.deliverables)

/-- `merge_chunk_results(chunk_results, original_prompt)`.  `self.chunks`
(the boundary metadata) is the explicit `self_chunks` argument.
`list(set(...))` deduplication is modelled keeping first occurrences
(Python's set iteration order is unspecified; no claim depends on it). -/
def merge_chunk_results (cfg : ChunkingConfig) (self_chunks : List Chunk)
    (chunk_results : List ChunkResult) (original_prompt : List Char) :
    Option MergeOut :=
  match chunk_results with
  | [] => some .emptyDict
  | c0 :: _ =>
    let total := chunk_results.length
    let ctx0 : List (String × CtxV) :=
      [("chunked", .vbool true), ("total_chunks", .vint total),
       ("merge_strategy", .vstr cfg.merge_strategy)]
    match chunk_results.enum.foldlM (mergeStep total) ([], ctx0, []) with
    | none => none
    | some (tasks, ctx, delivs) =>
      some (.merged
        { version := 1
          original := original_prompt
          intent := c0.intent
          tasks := tasks
          context := ctx
          deliverables := delivs.dedup
          total_chunks := total
          meta_merge_strategy := cfg.merge_strategy
          chunk_boundaries := self_chunks.map fun ch =>
            { chunk_id := ch.chunk_id, start_char := ch.start_char,
              end_char := ch.end_char, tokens := ch.estimated_tokens } })

/-- Reading a merged prompt back as one chunk result (the dict `.get`
accesses a second merge performs on it). -/
def chunkResultOfMerged (m : MergedPrompt) : ChunkResult :=
  { intent := m.intent, tasks := m.tasks, context := m.context,
    deliverables := m.deliverables }

/-! ### Merge lemmas -/

def isListOrDict : CtxV → Bool
  | .vlist _ => true
  | .vdict _ => true
  | _ => false

def NodupKeys (l : List (String × CtxV)) : Prop := (l.map Prod.fst).Nodup

/-- A key that is present and bound to a scalar (non-list, non-dict). -/
def scalarPresent (ctx : List (String × CtxV)) (k : String) : Prop :=
  ∃ w, lookupC ctx k = some w ∧ isListOrDict w = false

/-- The context invariant carried through the merge fold. -/
def CtxInv (ctx : List (String × CtxV)) : Prop :=
  NodupKeys ctx ∧ scalarPresent ctx "chunked" ∧
    scalarPresent ctx "total_chunks" ∧ scalarPresent ctx "merge_strategy"

/-! ### Claim C3 -/

/-- A one-task chunk result whose task depends on a sibling. -/
def c3res : ChunkResult :=
  { tasks := [{ id := "t1".toList, depends_on := some ["t0".toList] }] }

def c3merge1 : Option MergeOut := merge_chunk_results {} [] [c3res] "o".toList

/-- Task ids and dependency lists after merging twice. -/
def c3tasks2 : Option (List (List Char) × List (Option (List (List Char)))) :=
  match c3merge1 with
  | some (.merged m1) =>
    match merge_chunk_results {} [] [chunkResultOfMerged m1] "o".toList with
    | some (.merged m2) =>
      some (m2.tasks.map MTask.id, m2.tasks.map MTask.depends_on)
    | _ => none
  | _ => none

/-- The concrete result of the first merge of `[c3res]`. -/
def c3m1 : MergedPrompt :=
  { version := 1
    original := "o".toList
    intent := .vdict []
    tasks := [{ id := "chunk0_t1".toList,
                depends_on := some ["chunk0_t0".toList],
                chunk_id := some 0,
                chunk_context := some "Processes chunk 1/1".toList }]
    context := [("chunked", .vbool true), ("total_chunks", .vint 1),
      ("merge_strategy", .vstr "sequential")]
    deliverables := []
    total_chunks := 1
    meta_merge_strategy := "sequential"
    chunk_boundaries := [] }

/-! ## Theorems -/

/-! ### Lemmas about `splitParts` -/

theorem splitOnChar_ne_nil (sep : Char) (s : List Char) :
    splitOnChar sep s ≠ [] := by
  cases s with
  | nil => simp [splitOnChar]
  | cons c t =>
    simp only [splitOnChar]
    split
    · simp
    · split <;> simp_all

theorem splitParts_length (bp bf : String) (lines : List (List Char)) :
    (splitParts bp bf lines).length =
      (lines.length + LINES_PER_PART - 1) / LINES_PER_PART := by
  simp [splitParts]

theorem splitParts_get (bp bf : String) (lines : List (List Char)) (i : Nat)
    (h : i < (splitParts bp bf lines).length) :
    ((splitParts bp bf lines).get ⟨i, h⟩).part_number = i + 1 ∧
    ((splitParts bp bf lines).get ⟨i, h⟩).start_line =
      i * LINES_PER_PART + 1 ∧
    ((splitParts bp bf lines).get ⟨i, h⟩).end_line =
      min ((i + 1) * LINES_PER_PART) lines.length ∧
    ((splitParts bp bf lines).get ⟨i, h⟩).line_count =
      min ((i + 1) * LINES_PER_PART) lines.length - i * LINES_PER_PART := by
  have hlen := splitParts_length bp bf lines
  have hi : i < (lines.length + LINES_PER_PART - 1) / LINES_PER_PART := by
    omega
  simp [splitParts, List.get_eq_getElem, List.getElem_map,
    List.getElem_range, List.length_take, List.length_drop]
  omega

theorem splitParts_getElem? (bp bf : String) (lines : List (List Char))
    (i : Nat) (p : OutputPart)
    (h : (splitParts bp bf lines)[i]? = some p) :
    p.part_number = i + 1 ∧ p.start_line = i * LINES_PER_PART + 1 ∧
    p.end_line = min ((i + 1) * LINES_PER_PART) lines.length ∧
    p.line_count =
      min ((i + 1) * LINES_PER_PART) lines.length - i * LINES_PER_PART := by
  rcases List.getElem?_eq_some.mp h with ⟨hi, hget⟩
  have := splitParts_get bp bf lines i hi
  simp only [List.get_eq_getElem] at this
  rw [hget] at this
  exact this

/-- The 25,000-line instance: ceil division gives exactly 3 parts with the
stated inclusive 1-indexed ranges. -/
theorem splitParts_25000 (lines : List (List Char))
    (hlen : lines.length = 25000) :
    ((splitParts "loom/unbounded_outputs" "t" lines).map
      (fun p => (p.part_number, p.start_line, p.end_line))) =
    [(1, 1, 10000), (2, 10001, 20000), (3, 20001, 25000)] := by
  have hL : (splitParts "loom/unbounded_outputs" "t" lines).length = 3 := by
    rw [splitParts_length, hlen]
    rfl
  apply List.ext_getElem
  · rw [List.length_map, hL]
    rfl
  · intro i h1 h2
    have h3 : i < 3 := by
      rwa [List.length_map, hL] at h1
    have hq := splitParts_get "loom/unbounded_outputs" "t" lines i
      (by rwa [List.length_map] at h1)
    simp only [List.get_eq_getElem] at hq
    obtain ⟨hn, hs, he, -⟩ := hq
    rw [List.getElem_map, hn, hs, he, hlen]
    interval_cases i <;> norm_num [LINES_PER_PART]

/-- **C8.** `split_output` partitions the lines into consecutive parts of at
most 10,000 lines, numbered from 1, with `part[1].start_line = 1`, each
part's `end_line + 1` equal to the next part's `start_line`, and the last
part's `end_line` equal to the total line count; a 25,000-line artifact
yields exactly 3 parts with ranges `[1,10000], [10001,20000], [20001,25000]`. -/
theorem claim_C8_split_output_partition :
    (∀ (bp tid : String) (content : List Char),
      (((split_output bp tid content).2).length =
        ((splitOnChar '\n' content).length + LINES_PER_PART - 1) /
          LINES_PER_PART) ∧
      ((split_output bp tid content).2 ≠ []) ∧
      (∀ i p, ((split_output bp tid content).2)[i]? = some p →
        p.part_number = i + 1) ∧
      (((split_output bp tid content).2).head?.map OutputPart.start_line =
        some 1) ∧
      (∀ i p q, ((split_output bp tid content).2)[i]? = some p →
        ((split_output bp tid content).2)[i+1]? = some q →
        p.end_line + 1 = q.start_line) ∧
      (((split_output bp tid content).2).getLast?.map OutputPart.end_line =
        some (splitOnChar '\n' content).length) ∧
      (∀ p ∈ (split_output bp tid content).2,
        p.line_count ≤ LINES_PER_PART)) ∧
    (∀ lines : List (List Char), lines.length = 25000 →
      (splitParts "loom/unbounded_outputs" "t" lines).map
        (fun p => (p.part_number, p.start_line, p.end_line)) =
      [(1, 1, 10000), (2, 10001, 20000), (3, 20001, 25000)]) := by
  constructor
  · intro bp tid content
    set lines := splitOnChar '\n' content with hlines
    have hps : (split_output bp tid content).2 = splitParts bp tid lines := rfl
    have htot : 1 ≤ lines.length := by
      have := splitOnChar_ne_nil '\n' content
      rw [← hlines] at this
      exact List.length_pos.mpr this
    have hlen : (splitParts bp tid lines).length =
        (lines.length + LINES_PER_PART - 1) / LINES_PER_PART :=
      splitParts_length bp tid lines
    have hnum : 1 ≤ (splitParts bp tid lines).length := by
      rw [hlen]; unfold LINES_PER_PART; omega
    refine ⟨by rw [hps, hlen], ?_, ?_, ?_, ?_, ?_, ?_⟩
    · rw [hps]
      exact List.length_pos.mp (by omega)
    · intro i p hp
      rw [hps] at hp
      exact (splitParts_getElem? bp tid lines i p hp).1
    · rw [hps]
      rw [List.head?_eq_getElem?, List.getElem?_eq_getElem hnum]
      have := (splitParts_get bp tid lines 0 hnum).2.1
      simp only [List.get_eq_getElem] at this
      rw [Option.map_some', this]
      norm_num
    · intro i p q hp hq
      rw [hps] at hp hq
      obtain ⟨-, -, hpe, -⟩ := splitParts_getElem? bp tid lines i p hp
      obtain ⟨-, hqs, -, -⟩ := splitParts_getElem? bp tid lines (i+1) q hq
      have hq' : i + 1 < (splitParts bp tid lines).length :=
        (List.getElem?_eq_some.mp hq).1
      rw [hlen] at hq'
      rw [hpe, hqs]
      unfold LINES_PER_PART at *
      omega
    · rw [hps, List.getLast?_eq_getElem?]
      have hidx : (splitParts bp tid lines).length - 1 <
          (splitParts bp tid lines).length := by omega
      rw [List.getElem?_eq_getElem hidx]
      have := (splitParts_get bp tid lines _ hidx).2.2.1
      simp only [List.get_eq_getElem] at this
      rw [Option.map_some', this]
      unfold LINES_PER_PART at hlen ⊢
      congr 1
      omega
    · intro p hp
      rw [hps] at hp
      obtain ⟨⟨i, hi⟩, rfl⟩ := List.mem_iff_get.mp hp
      obtain ⟨-, -, -, hc⟩ := splitParts_get bp tid lines i hi
      simp only [List.get_eq_getElem] at hc ⊢
      rw [hc]
      unfold LINES_PER_PART
      omega
  · exact fun lines h => splitParts_25000 lines h

/-- Witness for C8: on the 2-line content `"a\nb"` the single produced part
is `⟨1, 1, 2, 2, …⟩` and respects the 10,000-line bound. -/
theorem claim_C8_split_output_partition_witness :
    (⟨1, 1, 2, 2, "loom/unbounded_outputs/t_part_1.py"⟩ : OutputPart) ∈
      (split_output "loom/unbounded_outputs" "t" ['a', '\n', 'b']).2 ∧
    (⟨1, 1, 2, 2, "loom/unbounded_outputs/t_part_1.py"⟩ :
      OutputPart).line_count ≤ LINES_PER_PART :=
  ⟨by decide,
   (claim_C8_split_output_partition.1 "loom/unbounded_outputs" "t"
      ['a', '\n', 'b']).2.2.2.2.2.2 _ (by decide)⟩

/-! ### Validator lemmas and claim C1 -/

/-- Any content containing the literal `os.system(` triggers the
`os\.system\(` dangerous pattern, so validation fails. -/
theorem validate_output_content_os_system (content : List Char)
    (h : containsSub "os.system(".toList content = true) :
    (validate_output_content content).1 = false := by
  have hmem : ("os\\.system\\(", containsSub "os.system(".toList) ∈
      dangerousChecks := by
    simp [dangerousChecks]
  have hfilter : ("os\\.system\\(", containsSub "os.system(".toList) ∈
      dangerousChecks.filter (fun pc => pc.2 content) :=
    List.mem_filter.mpr ⟨hmem, h⟩
  have dmem : ("Dangerous pattern found: " ++ "os\\.system\\(") ∈
      dangerousIssues content :=
    List.mem_map_of_mem (fun pc => "Dangerous pattern found: " ++ pc.1)
      hfilter
  have hbig : ("Dangerous pattern found: " ++ "os\\.system\\(") ∈
      (dangerousIssues content ++ structuredDataIssues content ++
        missingFieldIssues content ++ completedIssues content) :=
    List.mem_append_left _ (List.mem_append_left _
      (List.mem_append_left _ dmem))
  have hne := List.ne_nil_of_mem hbig
  simp only [validate_output_content]
  cases hcase : (dangerousIssues content ++ structuredDataIssues content ++
      missingFieldIssues content ++ completedIssues content) with
  | nil => exact absurd hcase hne
  | cons a t => rfl

/-- Any patch whose action is not in the allow-list is rejected. -/
theorem validate_patch_bad_action (p : Patch) (a : String)
    (hp : p.action = some a) (ha : a ∉ ALLOWED_PATCH_ACTIONS) :
    (validate_patch p).1 = false := by
  obtain ⟨act, k, v, tid, fn, tk, ni⟩ := p
  simp only [Patch.action] at hp
  subst hp
  simp [validate_patch, ha]

/-- **C1 (counterexample).** The claim states that
`validate_file_path("loom/outputs/coder_1.py", "output")` is accepted, but
the source pattern is `^loom-rlm/outputs/[a-z_]+_[0-9]+\.py$`, whose
`loom-rlm/` root the path does not carry: the call rejects it. -/
theorem claim_C1_output_path_cex :
    (validate_file_path "loom/outputs/coder_1.py".toList "output").1 =
      false := by
  decide

/-- **C1 (amended).** The validator examples hold with the output path
spelled under the `loom-rlm/` root: `"../etc/passwd"` is rejected for
directory traversal, `"loom-rlm/outputs/coder_1.py"` passes the output
pattern, any content containing `os.system(` is rejected, and any patch
whose action is `"delete_everything"` is rejected as not in the
allow-list. -/
theorem claim_C1_validator_examples :
    (validate_file_path "../etc/passwd".toList "state").1 = false ∧
    (validate_file_path "loom-rlm/outputs/coder_1.py".toList "output").1 =
      true ∧
    (∀ content : List Char, containsSub "os.system(".toList content = true →
      (validate_output_content content).1 = false) ∧
    (∀ p : Patch, p.action = some "delete_everything" →
      (validate_patch p).1 = false) := by
  refine ⟨by decide, by decide, ?_, ?_⟩
  · exact validate_output_content_os_system
  · intro p hp
    exact validate_patch_bad_action p "delete_everything" hp (by decide)

/-- Witness for C1: a concrete content containing `os.system(` is
rejected by `validate_output_content`. -/
theorem claim_C1_validator_examples_witness :
    containsSub "os.system(".toList "x = os.system(1)".toList = true ∧
    (validate_output_content "x = os.system(1)".toList).1 = false :=
  ⟨by decide,
   claim_C1_validator_examples.2.2.1 "x = os.system(1)".toList (by decide)⟩

/-! ### Claim C2 -/

/-- **C2.** The claim says unknown dependency ids never cause an
exception, in particular for a task all of whose dependencies are
unknown.  In the source, `max(get_level(dep) for dep in deps if dep in
task_deps)` raises `ValueError` on an empty generator exactly when every
dependency of a task is unknown, so `calculate` raises instead of
returning; unknown ids are only skipped when at least one known
dependency remains (second conjunct). -/
theorem claim_C2_all_unknown_deps_raise :
    calculate { tasks := [{ id := "t1", depends_on := ["ghost"] }],
                original := [] } = none ∧
    (calculate { tasks := [{ id := "t0" },
                           { id := "t1", depends_on := ["t0", "ghost"] }],
                 original := [] }).isSome = true := by
  constructor <;> decide

/-! ### Claim C6 -/

/-- **C6.** `_map_score_to_iterations` realises the half-open bins
`[0,0.3)→3, [0.3,0.6)→5, [0.6,0.8)→7, [0.8,1.0]→10`; in particular a
score of exactly `0.3` maps to 5 and a score of exactly `1.0` maps to 10
(via the explicit edge-case fallback). -/
theorem claim_C6_iteration_bins :
    (∀ s : ℚ, 0 ≤ s → s < 3/10 → map_score_to_iterations s = 3) ∧
    (∀ s : ℚ, 3/10 ≤ s → s < 6/10 → map_score_to_iterations s = 5) ∧
    (∀ s : ℚ, 6/10 ≤ s → s < 8/10 → map_score_to_iterations s = 7) ∧
    (∀ s : ℚ, 8/10 ≤ s → s ≤ 1 → map_score_to_iterations s = 10) ∧
    map_score_to_iterations (3/10) = 5 ∧
    map_score_to_iterations 1 = 10 := by
  have htop : map_score_to_iterations 1 = 10 := by
    norm_num [map_score_to_iterations, ITERATION_MAP, List.find?]
  have hmid : map_score_to_iterations (3/10) = 5 := by
    norm_num [map_score_to_iterations, ITERATION_MAP, List.find?]
  refine ⟨?_, ?_, ?_, ?_, hmid, htop⟩
  · intro s h1 h2
    simp [map_score_to_iterations, ITERATION_MAP, List.find?, h1, h2]
  · intro s h1 h2
    have h0 : (0:ℚ) ≤ s := by linarith
    have hn : ¬(s < 3/10) := by linarith
    simp [map_score_to_iterations, ITERATION_MAP, List.find?, h0, hn, h1, h2]
  · intro s h1 h2
    have h0 : (0:ℚ) ≤ s := by linarith
    have hn1 : ¬(s < 3/10) := by linarith
    have h3 : (3:ℚ)/10 ≤ s := by linarith
    have hn2 : ¬(s < 6/10) := by linarith
    simp [map_score_to_iterations, ITERATION_MAP, List.find?, h0, hn1, h3,
      hn2, h1, h2]
  · intro s h1 h2
    have h0 : (0:ℚ) ≤ s := by linarith
    have hn1 : ¬(s < 3/10) := by linarith
    have h3 : (3:ℚ)/10 ≤ s := by linarith
    have hn2 : ¬(s < 6/10) := by linarith
    have h6 : (6:ℚ)/10 ≤ s := by linarith
    have hn3 : ¬(s < 8/10) := by linarith
    rcases lt_or_eq_of_le h2 with hlt | heq
    · simp [map_score_to_iterations, ITERATION_MAP, List.find?, h0, hn1, h3,
        hn2, h6, hn3, h1, hlt]
    · subst heq
      exact htop

/-- Witness for C6: score `0` lies in the first bin and maps to 3
iterations. -/
theorem claim_C6_iteration_bins_witness :
    ((0:ℚ) ≤ 0 ∧ (0:ℚ) < 3/10) ∧ map_score_to_iterations 0 = 3 :=
  ⟨⟨le_refl 0, by norm_num⟩,
   claim_C6_iteration_bins.1 0 (le_refl 0) (by norm_num)⟩

/-! ### Association-list lemmas -/

theorem lookupT_setT (l : List (String × SpawnNode)) (k : String)
    (v : SpawnNode) (x : String) :
    lookupT (setT l k v) x = if k = x then some v else lookupT l x := by
  induction l with
  | nil => simp [setT, lookupT]
  | cons h t ih =>
    obtain ⟨k', v'⟩ := h
    by_cases hk : k' = k
    · subst hk
      by_cases hx : k' = x <;> simp [setT, lookupT, hx]
    · by_cases hx : k' = x
      · subst hx
        have : ¬(k = k') := fun hc => hk hc.symm
        simp [setT, lookupT, hk, this]
      · simp [setT, lookupT, hk, hx, ih]

theorem lookupT_modifyT (l : List (String × SpawnNode)) (k : String)
    (f : SpawnNode → SpawnNode) (x : String) :
    lookupT (modifyT l k f) x =
      if k = x then (lookupT l x).map f else lookupT l x := by
  induction l with
  | nil => simp [modifyT, lookupT]
  | cons h t ih =>
    obtain ⟨k', v'⟩ := h
    by_cases hk : k' = k
    · subst hk
      by_cases hx : k' = x <;> simp [modifyT, lookupT, hx]
    · by_cases hx : k' = x
      · subst hx
        have : ¬(k = k') := fun hc => hk hc.symm
        simp [modifyT, lookupT, hk, this]
      · simp [modifyT, lookupT, hk, hx, ih]

theorem length_modifyT (l : List (String × SpawnNode)) (k : String)
    (f : SpawnNode → SpawnNode) : (modifyT l k f).length = l.length := by
  induction l with
  | nil => rfl
  | cons h t ih =>
    obtain ⟨k', v'⟩ := h
    by_cases hk : k' = k <;> simp [modifyT, hk, ih]

theorem length_setT_fresh (l : List (String × SpawnNode)) (k : String)
    (v : SpawnNode) (h : lookupT l k = none) :
    (setT l k v).length = l.length + 1 := by
  induction l with
  | nil => rfl
  | cons hd t ih =>
    obtain ⟨k', v'⟩ := hd
    by_cases hk : k' = k
    · subst hk
      simp [lookupT] at h
    · simp [lookupT, hk] at h
      simp [setT, hk, ih h]

/-! ### Invariant preservation -/

theorem TreeInvT_register_root (s : SpawnState) (tid role : String)
    (h : TreeInvT s.spawn_tree) :
    TreeInvT (register_root_task s tid role).spawn_tree := by
  unfold register_root_task
  by_cases hex : (lookupT s.spawn_tree tid).isSome
  · simpa [hex] using h
  · have hfresh : lookupT s.spawn_tree tid = none :=
      Option.not_isSome_iff_eq_none.mp hex
    simp only [hex, Bool.false_eq_true, if_false]
    intro id n hn
    rw [lookupT_setT] at hn
    have hlen := length_setT_fresh s.spawn_tree tid
      { task_id := tid, parent_task_id := none, depth := 0, role := role }
      hfresh
    by_cases hid : tid = id
    · rw [if_pos hid] at hn
      injection hn with hn
      subst hn
      refine ⟨fun _ => rfl, fun p hp => by simp at hp, ?_⟩
      simp only [hlen]
      omega
    · rw [if_neg hid] at hn
      obtain ⟨h1, h2, h3⟩ := h id n hn
      refine ⟨h1, fun p hp => ?_, ?_⟩
      · obtain ⟨pn, hpn, hd⟩ := h2 p hp
        refine ⟨pn, ?_, hd⟩
        rw [lookupT_setT, if_neg]
        · exact hpn
        · intro hc
          subst hc
          rw [hpn] at hfresh
          exact absurd hfresh (by simp)
      · simp only [hlen]
        omega

theorem TreeInvT_register_spawn (s : SpawnState) (pid cid role : String)
    (h : TreeInvT s.spawn_tree)
    (hfresh : lookupT s.spawn_tree cid = none) :
    TreeInvT (register_spawn s pid cid role).2.spawn_tree := by
  unfold register_spawn
  cases hp : lookupT s.spawn_tree pid with
  | none => simpa using h
  | some parent_node =>
    by_cases hc : can_spawn_child s pid
    · simp only [hc, Bool.not_true, Bool.false_eq_true, if_false]
      have hne : pid ≠ cid := by
        intro hcontra
        rw [hcontra, hfresh] at hp
        exact absurd hp (by simp)
      set f : SpawnNode → SpawnNode :=
        fun n => { n with children := n.children ++ [cid] } with hf
      set child : SpawnNode :=
        { task_id := cid, parent_task_id := some pid,
          depth := parent_node.depth + 1, role := role } with hchild
      have hmodfresh : lookupT (modifyT s.spawn_tree pid f) cid = none := by
        rw [lookupT_modifyT, if_neg hne, hfresh]
      have hlen : (setT (modifyT s.spawn_tree pid f) cid child).length =
          s.spawn_tree.length + 1 := by
        rw [length_setT_fresh _ _ _ hmodfresh, length_modifyT]
      have hnew : ∀ x, lookupT (setT (modifyT s.spawn_tree pid f) cid child)
          x = if cid = x then some child
              else if pid = x then (lookupT s.spawn_tree x).map f
              else lookupT s.spawn_tree x := by
        intro x
        rw [lookupT_setT, lookupT_modifyT]
      intro id n hn
      rw [hnew] at hn
      by_cases hid : cid = id
      · rw [if_pos hid] at hn
        injection hn with hn
        subst hn
        refine ⟨fun hnone => by simp [hchild] at hnone, fun p hparent => ?_,
          ?_⟩
        · have hpp : p = pid := by
            simp [hchild] at hparent
            exact hparent.symm
          subst hpp
          refine ⟨f parent_node, ?_, rfl⟩
          rw [hnew, if_neg (fun hcontra => hne hcontra.symm),
            if_pos rfl, hp]
          rfl
        · obtain ⟨-, -, h3⟩ := h pid parent_node hp
          simp only [hchild, hlen]
          omega
      · rw [if_neg hid] at hn
        by_cases hpid : pid = id
        · subst hpid
          rw [if_pos rfl, hp] at hn
          simp only [Option.map_some'] at hn
          injection hn with hn
          subst hn
          obtain ⟨h1, h2, h3⟩ := h pid parent_node hp
          refine ⟨fun hnone => h1 hnone, fun p hparent => ?_, ?_⟩
          · obtain ⟨pn, hpn, hd⟩ := h2 p hparent
            have hpne : cid ≠ p := by
              intro hcontra
              rw [← hcontra, hfresh] at hpn
              exact absurd hpn (by simp)
            by_cases hpp : pid = p
            · refine ⟨f pn, ?_, hd⟩
              rw [hnew, if_neg hpne, if_pos hpp, ← hpp, hp]
              have : pn = parent_node := by
                rw [hpp, hpn] at hp
                injection hp
              rw [this]
              rfl
            · refine ⟨pn, ?_, hd⟩
              rw [hnew, if_neg hpne, if_neg hpp]
              exact hpn
          · simp only [hlen]
            omega
        · rw [if_neg hpid] at hn
          obtain ⟨h1, h2, h3⟩ := h id n hn
          refine ⟨h1, fun p hparent => ?_, ?_⟩
          · obtain ⟨pn, hpn, hd⟩ := h2 p hparent
            have hpne : cid ≠ p := by
              intro hcontra
              rw [← hcontra, hfresh] at hpn
              exact absurd hpn (by simp)
            by_cases hpp : pid = p
            · refine ⟨f pn, ?_, hd⟩
              rw [hnew, if_neg hpne, if_pos hpp, ← hpp, hp]
              have : pn = parent_node := by
                rw [hpp, hpn] at hp
                injection hp
              rw [this]
              rfl
            · refine ⟨pn, ?_, hd⟩
              rw [hnew, if_neg hpne, if_neg hpp]
              exact hpn
          · simp only [hlen]
            omega
    · simp only [hc, Bool.not_false, if_true]
      exact h

theorem TreeInvT_reachable (s : SpawnState) (h : Reachable s) :
    TreeInvT s.spawn_tree := by
  induction h with
  | init md auto => intro id n hn; simp [lookupT] at hn
  | root s tid role _ ih => exact TreeInvT_register_root s tid role ih
  | spawn s pid cid role _ hfresh ih =>
    exact TreeInvT_register_spawn s pid cid role ih hfresh

/-- Specification of the parent walk: from any node of depth `d`, with
fuel above `d + 1`, the walk returns the `d+1`-long chain of parent
pointers, descending in depth, ending at a parentless depth-0 node, and
visiting no id twice. -/
theorem pathAux_spec (tree : List (String × SpawnNode))
    (hI : ∀ id n, lookupT tree id = some n →
      (n.parent_task_id = none → n.depth = 0) ∧
      (∀ p, n.parent_task_id = some p →
        ∃ pn, lookupT tree p = some pn ∧ n.depth = pn.depth + 1)) :
    ∀ fuel id n, lookupT tree id = some n → n.depth + 1 < fuel →
    ∃ l, pathAux tree fuel (some id) = some (id :: l) ∧
      (id :: l).length = n.depth + 1 ∧
      (∃ r rn, (id :: l).getLast? = some r ∧ lookupT tree r = some rn ∧
        rn.depth = 0 ∧ rn.parent_task_id = none) ∧
      (id :: l).Chain' (fun a b => ∃ na, lookupT tree a = some na ∧
        na.parent_task_id = some b) ∧
      (∀ x ∈ (id :: l), ∃ nx, lookupT tree x = some nx ∧
        nx.depth ≤ n.depth) ∧
      (id :: l).Nodup := by
  intro fuel
  induction fuel with
  | zero => intro id n hn hd; omega
  | succ f ih =>
    intro id n hn hd
    cases hpar : n.parent_task_id with
    | none =>
      have hd0 : n.depth = 0 := (hI id n hn).1 hpar
      obtain ⟨f', rfl⟩ : ∃ f', f = f' + 1 := by
        cases f with
        | zero => omega
        | succ k => exact ⟨k, rfl⟩
      refine ⟨[], ?_, ?_, ?_, ?_, ?_, ?_⟩
      · simp [pathAux, hn, hpar]
      · simp [hd0]
      · exact ⟨id, n, by simp, hn, hd0, hpar⟩
      · simp
      · intro x hx
        simp at hx
        subst hx
        exact ⟨n, hn, le_refl _⟩
      · simp
    | some p =>
      obtain ⟨pn, hpn, hdp⟩ := (hI id n hn).2 p hpar
      obtain ⟨l', heq, hlen, hroot, hchain, hmem, hnodup⟩ :=
        ih p pn hpn (by omega)
      refine ⟨p :: l', ?_, ?_, ?_, ?_, ?_, ?_⟩
      · simp [pathAux, hn, hpar, heq]
      · simp at hlen ⊢
        omega
      · obtain ⟨r, rn, hr, hrl, hr0, hrp⟩ := hroot
        exact ⟨r, rn, by rw [List.getLast?_cons_cons]; exact hr, hrl, hr0,
          hrp⟩
      · exact List.chain'_cons.mpr ⟨⟨n, hn, hpar⟩, hchain⟩
      · intro x hx
        rcases List.mem_cons.mp hx with rfl | hx'
        · exact ⟨n, hn, le_refl _⟩
        · obtain ⟨nx, hnx, hle⟩ := hmem x hx'
          exact ⟨nx, hnx, by omega⟩
      · refine List.nodup_cons.mpr ⟨?_, hnodup⟩
        intro hmem_id
        obtain ⟨nx, hnx, hle⟩ := hmem id hmem_id
        rw [hn] at hnx
        injection hnx with hnx
        subst hnx
        omega

/-- **C10.** In every state reachable from an empty manager through
`register_root_task` and fresh-child `register_spawn` calls, each node's
parent-pointer chain is acyclic and ends at a depth-0 parentless root,
its depth equals the chain length, and `get_spawn_path` terminates with
a root-to-task path of length `depth + 1`. -/
theorem claim_C10_spawn_paths :
    ∀ s : SpawnState, Reachable s → ∀ tid n,
      lookupT s.spawn_tree tid = some n →
      ∃ path, get_spawn_path s tid = some path ∧
        path.length = n.depth + 1 ∧
        path.getLast? = some tid ∧
        (∃ r rn, path.head? = some r ∧ lookupT s.spawn_tree r = some rn ∧
          rn.depth = 0 ∧ rn.parent_task_id = none) ∧
        path.Chain' (fun a b => ∃ nb, lookupT s.spawn_tree b = some nb ∧
          nb.parent_task_id = some a) ∧
        path.Nodup := by
  intro s hreach tid n hn
  have hInv := TreeInvT_reachable s hreach
  have hI : ∀ id m, lookupT s.spawn_tree id = some m →
      (m.parent_task_id = none → m.depth = 0) ∧
      (∀ p, m.parent_task_id = some p →
        ∃ pm, lookupT s.spawn_tree p = some pm ∧ m.depth = pm.depth + 1) :=
    fun id m hm => ⟨(hInv id m hm).1, (hInv id m hm).2.1⟩
  have hdb : n.depth < s.spawn_tree.length := (hInv tid n hn).2.2
  obtain ⟨l, heq, hlen, hroot, hchain, hmem, hnodup⟩ :=
    pathAux_spec s.spawn_tree hI (s.spawn_tree.length + 1) tid n hn
      (by omega)
  refine ⟨(tid :: l).reverse, ?_, ?_, ?_, ?_, ?_, ?_⟩
  · simp [get_spawn_path, hn, heq]
  · simp at hlen ⊢
    omega
  · rw [List.getLast?_reverse]
    rfl
  · obtain ⟨r, rn, hr, hrl, hr0, hrp⟩ := hroot
    exact ⟨r, rn, by rw [List.head?_reverse]; exact hr, hrl, hr0, hrp⟩
  · exact List.chain'_reverse.mpr hchain
  · exact List.nodup_reverse.mpr hnodup

/-- Witness for C10: the two-node state root → child is reachable, and
the spawn path of `"child"` is the length-2 root-to-task chain. -/
theorem claim_C10_spawn_paths_witness :
    (Reachable spawnDemo1.2 ∧
     lookupT spawnDemo1.2.spawn_tree "child" =
       some { task_id := "child", parent_task_id := some "root", depth := 1,
              role := "coder" }) ∧
    (∃ path, get_spawn_path spawnDemo1.2 "child" = some path ∧
      path.length = 2 ∧
      path.getLast? = some "child" ∧
      (∃ r rn, path.head? = some r ∧
        lookupT spawnDemo1.2.spawn_tree r = some rn ∧ rn.depth = 0 ∧
        rn.parent_task_id = none) ∧
      path.Chain' (fun a b => ∃ nb, lookupT spawnDemo1.2.spawn_tree b =
        some nb ∧ nb.parent_task_id = some a) ∧
      path.Nodup) := by
  have hr : Reachable spawnDemo1.2 :=
    Reachable.spawn spawnDemo0 "root" "child" "coder"
      (Reachable.root _ "root" "coder" (Reachable.init 2 true)) (by decide)
  exact ⟨⟨hr, by decide⟩,
    claim_C10_spawn_paths spawnDemo1.2 hr "child"
      { task_id := "child", parent_task_id := some "root", depth := 1,
        role := "coder" } (by decide)⟩

/-- **C5 (counterexample).** A self-spawn (`parent = child`, allowed by
the depth check) returns `true` and creates the depth-1 child node, but
the dict assignment of the child hides the mutated parent object, so the
surviving node's `children` list is empty: the child id was *not*
appended to the parent's children as observable state. -/
theorem claim_C5_self_spawn_cex :
    (register_spawn (register_root_task {} "a" "coder") "a" "a" "coder").1 =
      true ∧
    (lookupT (register_spawn (register_root_task {} "a" "coder")
        "a" "a" "coder").2.spawn_tree "a").map SpawnNode.children =
      some [] := by
  constructor <;> decide

/-- **C5 (amended).** `register_spawn` returns `false` with no mutation
when the parent is unknown or its depth reaches `max_depth`; otherwise it
returns `true`, creates the child node at depth `parent.depth + 1`, and —
provided the child id differs from the parent id (a self-spawn's dict
assignment overwrites the parent binding and loses the append) — appends
the child id to the parent's children.  With `max_depth = 2`, root →
child → grandchild works and the grandchild cannot spawn. -/
theorem claim_C5_register_spawn_contract :
    (∀ (s : SpawnState) (pid cid role : String),
      lookupT s.spawn_tree pid = none →
      register_spawn s pid cid role = (false, s)) ∧
    (∀ (s : SpawnState) (pid cid role : String) (pn : SpawnNode),
      lookupT s.spawn_tree pid = some pn → s.max_depth ≤ pn.depth →
      register_spawn s pid cid role = (false, s)) ∧
    (∀ (s : SpawnState) (pid cid role : String) (pn : SpawnNode),
      lookupT s.spawn_tree pid = some pn → pn.depth < s.max_depth →
      (register_spawn s pid cid role).1 = true ∧
      lookupT (register_spawn s pid cid role).2.spawn_tree cid =
        some { task_id := cid, parent_task_id := some pid,
               depth := pn.depth + 1, role := role } ∧
      (pid ≠ cid →
        lookupT (register_spawn s pid cid role).2.spawn_tree pid =
          some { pn with children := pn.children ++ [cid] })) ∧
    (spawnDemo1.1 = true ∧
     (lookupT spawnDemo1.2.spawn_tree "child").map SpawnNode.depth =
       some 1 ∧
     spawnDemo2.1 = true ∧
     (lookupT spawnDemo2.2.spawn_tree "grand").map SpawnNode.depth =
       some 2 ∧
     register_spawn spawnDemo2.2 "grand" "x" "coder" =
       (false, spawnDemo2.2)) := by
  refine ⟨?_, ?_, ?_, by refine ⟨by decide, by decide, by decide, by decide,
    by decide⟩⟩
  · intro s pid cid role h
    simp [register_spawn, h]
  · intro s pid cid role pn h h2
    simp [register_spawn, can_spawn_child, h, Nat.not_lt.mpr h2]
  · intro s pid cid role pn h h2
    have hcan : can_spawn_child s pid = true := by
      simp [can_spawn_child, h, h2]
    refine ⟨?_, ?_, ?_⟩
    · simp [register_spawn, h, hcan]
    · simp only [register_spawn, h, hcan, Bool.not_true, Bool.false_eq_true,
        if_false]
      rw [lookupT_setT, if_pos rfl]
    · intro hne
      simp only [register_spawn, h, hcan, Bool.not_true, Bool.false_eq_true,
        if_false]
      rw [lookupT_setT, if_neg (fun hc => hne hc.symm), lookupT_modifyT,
        if_pos rfl, h]
      rfl

/-- Witness for C5: the root of the demo state has depth `0 < 2`, and
spawning `"child"` from it succeeds, creating the depth-1 node. -/
theorem claim_C5_register_spawn_contract_witness :
    (lookupT spawnDemo0.spawn_tree "root" =
      some { task_id := "root", parent_task_id := none, depth := 0,
             role := "coder" } ∧
     (0:Nat) < spawnDemo0.max_depth) ∧
    ((register_spawn spawnDemo0 "root" "child" "coder").1 = true ∧
     lookupT (register_spawn spawnDemo0 "root" "child"
        "coder").2.spawn_tree "child" =
       some { task_id := "child", parent_task_id := some "root", depth := 1,
              role := "coder" } ∧
     ("root" ≠ "child" →
       lookupT (register_spawn spawnDemo0 "root" "child"
          "coder").2.spawn_tree "root" =
         some { task_id := "root", parent_task_id := none, depth := 0,
                role := "coder", children := ["child"] })) :=
  ⟨⟨by decide, by decide⟩,
   claim_C5_register_spawn_contract.2.2.1 spawnDemo0 "root" "child" "coder"
     { task_id := "root", parent_task_id := none, depth := 0,
       role := "coder" } (by decide) (by decide)⟩

theorem lookupC_setC (l : List (String × CtxV)) (k : String) (v : CtxV)
    (x : String) :
    lookupC (setC l k v) x = if k = x then some v else lookupC l x := by
  induction l with
  | nil => simp [setC, lookupC]
  | cons h t ih =>
    obtain ⟨k', v'⟩ := h
    by_cases hk : k' = k
    · subst hk
      by_cases hx : k' = x <;> simp [setC, lookupC, hx]
    · by_cases hx : k' = x
      · subst hx
        have : ¬(k = k') := fun hc => hk hc.symm
        simp [setC, lookupC, hk, this]
      · simp [setC, lookupC, hk, hx, ih]

theorem lookupC_eq_none_iff (l : List (String × CtxV)) (k : String) :
    lookupC l k = none ↔ k ∉ l.map Prod.fst := by
  induction l with
  | nil => simp [lookupC]
  | cons h t ih =>
    obtain ⟨k', v'⟩ := h
    by_cases hk : k' = k
    · subst hk
      simp [lookupC]
    · simp only [lookupC, hk, if_false, List.map_cons, List.mem_cons]
      rw [ih]
      constructor
      · intro h1 h2
        rcases h2 with h2 | h2
        · exact hk h2.symm
        · exact h1 h2
      · intro h1 h2
        exact h1 (Or.inr h2)

theorem keys_setC_present (l : List (String × CtxV)) (k : String) (v : CtxV)
    (h : (lookupC l k).isSome) :
    (setC l k v).map Prod.fst = l.map Prod.fst := by
  induction l with
  | nil => simp [lookupC] at h
  | cons hd t ih =>
    obtain ⟨k', v'⟩ := hd
    by_cases hk : k' = k
    · subst hk
      simp [setC]
    · simp only [lookupC, hk, if_false] at h
      simp [setC, hk, ih h]

theorem keys_setC_absent (l : List (String × CtxV)) (k : String) (v : CtxV)
    (h : lookupC l k = none) :
    (setC l k v).map Prod.fst = l.map Prod.fst ++ [k] := by
  induction l with
  | nil => simp [setC]
  | cons hd t ih =>
    obtain ⟨k', v'⟩ := hd
    by_cases hk : k' = k
    · subst hk
      simp [lookupC] at h
    · simp only [lookupC, hk, if_false] at h
      simp [setC, hk, ih h]

theorem NodupKeys_setC (l : List (String × CtxV)) (k : String) (v : CtxV)
    (h : NodupKeys l) : NodupKeys (setC l k v) := by
  unfold NodupKeys at *
  cases hl : lookupC l k with
  | none =>
    rw [keys_setC_absent l k v hl]
    have hk := (lookupC_eq_none_iff l k).mp hl
    simp [List.nodup_append, h, hk]
  | some w =>
    rw [keys_setC_present l k v (by simp [hl])]
    exact h

theorem NodupKeys_lookupC (l : List (String × CtxV)) (k : String) (v : CtxV)
    (h : NodupKeys l) (hm : (k, v) ∈ l) : lookupC l k = some v := by
  induction l with
  | nil => simp at hm
  | cons hd t ih =>
    obtain ⟨k', v'⟩ := hd
    unfold NodupKeys at h
    simp only [List.map_cons, List.nodup_cons] at h
    rcases List.mem_cons.mp hm with heq | hmem
    · injection heq with h1 h2
      subst h1; subst h2
      simp [lookupC]
    · have hk : k' ≠ k := by
        intro hc
        subst hc
        exact h.1 (List.mem_map_of_mem Prod.fst hmem)
      simp [lookupC, hk]
      exact ih h.2 hmem

theorem ctxMergeKey_cases (ctx : List (String × CtxV)) (key : String)
    (v : CtxV) (ctx' : List (String × CtxV))
    (h : ctxMergeKey ctx key v = some ctx') :
    ctx' = ctx ∨ ∃ w, ctx' = setC ctx key w := by
  unfold ctxMergeKey at h
  cases hl : lookupC ctx key with
  | none =>
    rw [hl] at h
    injection h with h
    exact Or.inr ⟨v, h.symm⟩
  | some old =>
    rw [hl] at h
    cases v with
    | vlist l =>
      cases old with
      | vlist l' =>
        injection h with h
        exact Or.inr ⟨_, h.symm⟩
      | vbool b => simp at h
      | vint n => simp at h
      | vstr s => simp at h
      | vdict d => simp at h
      | vother => simp at h
    | vdict d =>
      cases old with
      | vdict d' =>
        injection h with h
        exact Or.inr ⟨_, h.symm⟩
      | vbool b => simp at h
      | vint n => simp at h
      | vstr s => simp at h
      | vlist l => simp at h
      | vother => simp at h
    | vbool b => injection h with h; exact Or.inl h.symm
    | vint n => injection h with h; exact Or.inl h.symm
    | vstr s => injection h with h; exact Or.inl h.symm
    | vother => injection h with h; exact Or.inl h.symm

theorem ctxMergeKey_scalarPresent (ctx : List (String × CtxV))
    (key : String) (v : CtxV) (ctx' : List (String × CtxV)) (k : String)
    (h : ctxMergeKey ctx key v = some ctx') (hs : scalarPresent ctx k) :
    scalarPresent ctx' k := by
  obtain ⟨w, hw, hwk⟩ := hs
  rcases ctxMergeKey_cases ctx key v ctx' h with rfl | ⟨u, rfl⟩
  · exact ⟨w, hw, hwk⟩
  · by_cases hkk : key = k
    · subst hkk
      -- the merged key coincides with the scalar key: only the scalar
      -- (first-writer-wins) branch of `ctxMergeKey` can apply, so in fact
      -- `ctx' = ctx`; derive that the setC branch stores the same shape.
      unfold ctxMergeKey at h
      rw [hw] at h
      cases v with
      | vlist l => cases w <;> simp_all [isListOrDict]
      | vdict d => cases w <;> simp_all [isListOrDict]
      | vbool b =>
        injection h with h
        exact ⟨w, by rw [← h, hw], hwk⟩
      | vint n =>
        injection h with h
        exact ⟨w, by rw [← h, hw], hwk⟩
      | vstr s =>
        injection h with h
        exact ⟨w, by rw [← h, hw], hwk⟩
      | vother =>
        injection h with h
        exact ⟨w, by rw [← h, hw], hwk⟩
    · exact ⟨w, by rw [lookupC_setC, if_neg hkk]; exact hw, hwk⟩

theorem ctxMergeKey_NodupKeys (ctx : List (String × CtxV)) (key : String)
    (v : CtxV) (ctx' : List (String × CtxV))
    (h : ctxMergeKey ctx key v = some ctx') (hn : NodupKeys ctx) :
    NodupKeys ctx' := by
  rcases ctxMergeKey_cases ctx key v ctx' h with rfl | ⟨u, rfl⟩
  · exact hn
  · exact NodupKeys_setC ctx key u hn

theorem ctxMergeAll_CtxInv :
    ∀ (items : List (String × CtxV)) (ctx ctx' : List (String × CtxV)),
      ctxMergeAll ctx items = some ctx' → CtxInv ctx → CtxInv ctx' := by
  intro items
  induction items with
  | nil =>
    intro ctx ctx' h hi
    simp [ctxMergeAll, List.foldlM] at h
    subst h
    exact hi
  | cons kv t ih =>
    intro ctx ctx' h hi
    rw [ctxMergeAll, List.foldlM_cons] at h
    cases hstep : ctxMergeKey ctx kv.1 kv.2 with
    | none => rw [hstep] at h; simp at h
    | some ctx1 =>
      rw [hstep] at h
      simp only [Option.bind_eq_bind, Option.some_bind] at h
      refine ih ctx1 ctx' h ?_
      obtain ⟨hn, h1, h2, h3⟩ := hi
      exact ⟨ctxMergeKey_NodupKeys ctx kv.1 kv.2 ctx1 hstep hn,
        ctxMergeKey_scalarPresent ctx kv.1 kv.2 ctx1 _ hstep h1,
        ctxMergeKey_scalarPresent ctx kv.1 kv.2 ctx1 _ hstep h2,
        ctxMergeKey_scalarPresent ctx kv.1 kv.2 ctx1 _ hstep h3⟩

theorem ctxMergeAll_some :
    ∀ (items : List (String × CtxV)) (ctx : List (String × CtxV)),
      (∀ kv ∈ items, isListOrDict kv.2 = true → lookupC ctx kv.1 = none) →
      (items.map Prod.fst).Nodup →
      ∃ ctx', ctxMergeAll ctx items = some ctx' := by
  intro items
  induction items with
  | nil => intro ctx _ _; exact ⟨ctx, by simp [ctxMergeAll, List.foldlM]⟩
  | cons kv t ih =>
    intro ctx h hn
    obtain ⟨k, v⟩ := kv
    simp only [List.map_cons, List.nodup_cons] at hn
    have hstep : ∃ ctx1, ctxMergeKey ctx k v = some ctx1 ∧
        (ctx1 = ctx ∨ ctx1 = setC ctx k v) := by
      unfold ctxMergeKey
      cases hl : lookupC ctx k with
      | none => exact ⟨setC ctx k v, rfl, Or.inr rfl⟩
      | some old =>
        cases v with
        | vlist l =>
          have := h (k, .vlist l) (List.mem_cons_self _ _) rfl
          rw [this] at hl
          exact absurd hl (by simp)
        | vdict d =>
          have := h (k, .vdict d) (List.mem_cons_self _ _) rfl
          rw [this] at hl
          exact absurd hl (by simp)
        | vbool b => exact ⟨ctx, rfl, Or.inl rfl⟩
        | vint n => exact ⟨ctx, rfl, Or.inl rfl⟩
        | vstr s => exact ⟨ctx, rfl, Or.inl rfl⟩
        | vother => exact ⟨ctx, rfl, Or.inl rfl⟩
    obtain ⟨ctx1, hs, hcase⟩ := hstep
    have hnext : ∀ kv ∈ t, isListOrDict kv.2 = true →
        lookupC ctx1 kv.1 = none := by
      intro kv hm hld
      have hk : k ≠ kv.1 := by
        intro hc
        exact hn.1 (hc ▸ List.mem_map_of_mem Prod.fst hm)
      have hold := h kv (List.mem_cons_of_mem _ hm) hld
      rcases hcase with rfl | rfl
      · exact hold
      · rw [lookupC_setC, if_neg hk]
        exact hold
    obtain ⟨ctx', hall⟩ := ih ctx1 hnext hn.2
    refine ⟨ctx', ?_⟩
    rw [ctxMergeAll, List.foldlM_cons, hs]
    simpa [ctxMergeAll] using hall

theorem mergeFold_tasks (total : Nat) :
    ∀ (items : List (Nat × ChunkResult))
      (acc res : List MTask × List (String × CtxV) × List String),
      items.foldlM (mergeStep total) acc = some res →
      res.1 = acc.1 ++ (items.map fun icr =>
        icr.2.tasks.map (rewriteTask icr.1 total)).flatten := by
  intro items
  induction items with
  | nil =>
    intro acc res h
    simp [List.foldlM] at h
    subst h
    simp
  | cons icr t ih =>
    intro acc res h
    rw [List.foldlM_cons] at h
    cases hstep : mergeStep total acc icr with
    | none => rw [hstep] at h; simp at h
    | some acc1 =>
      rw [hstep] at h
      simp only [Option.bind_eq_bind, Option.some_bind] at h
      have hres := ih acc1 res h
      have hacc1 : acc1.1 =
          acc.1 ++ icr.2.tasks.map (rewriteTask icr.1 total) := by
        unfold mergeStep at hstep
        cases hc : ctxMergeAll acc.2.1 icr.2.context with
        | none => rw [hc] at hstep; simp at hstep
        | some ctx' =>
          rw [hc] at hstep
          injection hstep with hstep
          rw [← hstep]
      rw [hres, hacc1]
      simp [List.append_assoc]

theorem mergeFold_ctx (total : Nat) :
    ∀ (items : List (Nat × ChunkResult))
      (acc res : List MTask × List (String × CtxV) × List String),
      items.foldlM (mergeStep total) acc = some res →
      CtxInv acc.2.1 → CtxInv res.2.1 := by
  intro items
  induction items with
  | nil =>
    intro acc res h hi
    simp [List.foldlM] at h
    subst h
    exact hi
  | cons icr t ih =>
    intro acc res h hi
    rw [List.foldlM_cons] at h
    cases hstep : mergeStep total acc icr with
    | none => rw [hstep] at h; simp at h
    | some acc1 =>
      rw [hstep] at h
      simp only [Option.bind_eq_bind, Option.some_bind] at h
      refine ih acc1 res h ?_
      unfold mergeStep at hstep
      cases hc : ctxMergeAll acc.2.1 icr.2.context with
      | none => rw [hc] at hstep; simp at hstep
      | some ctx' =>
        rw [hc] at hstep
        injection hstep with hstep
        rw [← hstep]
        exact ctxMergeAll_CtxInv icr.2.context acc.2.1 ctx' hc hi

/-- Every rewritten dependency reference starts with `chunk`. -/
theorem rewriteDep_prefixed (i : Nat) (d : List Char) :
    "chunk".toList.isPrefixOf (rewriteDep i d) = true := by
  unfold rewriteDep
  split
  · assumption
  · exact List.isPrefixOf_iff_prefix.mpr
      (by rw [prefixId]; exact List.prefix_append _ _)

theorem prefixId_zero (x : List Char) :
    prefixId 0 x = "chunk0_".toList ++ x := rfl

/-- The initial merged context satisfies the context invariant. -/
theorem CtxInv_init (total : Int) (ms : String) :
    CtxInv [("chunked", .vbool true), ("total_chunks", .vint total),
      ("merge_strategy", .vstr ms)] := by
  refine ⟨?_, ⟨.vbool true, rfl, rfl⟩, ⟨.vint total, rfl, rfl⟩,
    ⟨.vstr ms, rfl, rfl⟩⟩
  unfold NodupKeys
  simp only [List.map_cons, List.map_nil]
  decide

/-- The shape of a successful merge of non-empty input. -/
theorem merge_some_elim (cfg : ChunkingConfig) (chs : List Chunk)
    (c0 : ChunkResult) (rest : List ChunkResult) (orig : List Char)
    (m : MergedPrompt)
    (h : merge_chunk_results cfg chs (c0 :: rest) orig = some (.merged m)) :
    ∃ tasks ctx delivs,
      (c0 :: rest).enum.foldlM (mergeStep (c0 :: rest).length)
        ([], [("chunked", .vbool true),
              ("total_chunks", .vint (c0 :: rest).length),
              ("merge_strategy", .vstr cfg.merge_strategy)], []) =
        some (tasks, ctx, delivs) ∧
      m.tasks = tasks ∧ m.context = ctx ∧ m.deliverables = delivs.dedup := by
  simp only [merge_chunk_results] at h
  cases hfold : (c0 :: rest).enum.foldlM (mergeStep (c0 :: rest).length)
      ([], [("chunked", .vbool true),
            ("total_chunks", .vint (c0 :: rest).length),
            ("merge_strategy", .vstr cfg.merge_strategy)], []) with
  | none =>
    rw [hfold] at h
    simp at h
  | some tr =>
    obtain ⟨tasks, ctx, delivs⟩ := tr
    rw [hfold] at h
    simp only at h
    injection h with h
    injection h with h
    exact ⟨tasks, ctx, delivs, rfl, by rw [← h], by rw [← h], by rw [← h]⟩

/-- The merged task list is exactly the concatenation of each chunk's
tasks rewritten with that chunk's namespace. -/
theorem merge_tasks_eq (cfg : ChunkingConfig) (chs : List Chunk)
    (crs : List ChunkResult) (orig : List Char) (m : MergedPrompt)
    (h : merge_chunk_results cfg chs crs orig = some (.merged m)) :
    m.tasks = (crs.enum.map fun icr =>
      icr.2.tasks.map (rewriteTask icr.1 crs.length)).flatten := by
  cases crs with
  | nil =>
    simp only [merge_chunk_results] at h
    injection h with h
    exact absurd h (by simp)
  | cons c0 rest =>
    obtain ⟨tasks, ctx, delivs, hfold, htasks, -, -⟩ :=
      merge_some_elim cfg chs c0 rest orig m h
    have ht := mergeFold_tasks _ _ _ _ hfold
    simp only [List.nil_append] at ht
    rw [htasks]
    exact ht

/-- The merged context keeps the three bookkeeping keys scalar and its
keys duplicate-free. -/
theorem merge_ctxInv (cfg : ChunkingConfig) (chs : List Chunk)
    (crs : List ChunkResult) (orig : List Char) (m : MergedPrompt)
    (h : merge_chunk_results cfg chs crs orig = some (.merged m)) :
    CtxInv m.context := by
  cases crs with
  | nil =>
    simp only [merge_chunk_results] at h
    injection h with h
    exact absurd h (by simp)
  | cons c0 rest =>
    obtain ⟨tasks, ctx, delivs, hfold, -, hctx, -⟩ :=
      merge_some_elim cfg chs c0 rest orig m h
    rw [hctx]
    exact mergeFold_ctx _ _ _ _ hfold (CtxInv_init _ _)

/-- Every dependency reference of a merged task starts with `chunk`. -/
theorem merge_deps_prefixed (cfg : ChunkingConfig) (chs : List Chunk)
    (crs : List ChunkResult) (orig : List Char) (m : MergedPrompt)
    (h : merge_chunk_results cfg chs crs orig = some (.merged m)) :
    ∀ t ∈ m.tasks, ∀ deps, t.depends_on = some deps →
      ∀ d ∈ deps, "chunk".toList.isPrefixOf d = true := by
  intro t ht deps hdeps d hd
  rw [merge_tasks_eq cfg chs crs orig m h] at ht
  rw [List.mem_flatten] at ht
  obtain ⟨l, hl, htl⟩ := ht
  rw [List.mem_map] at hl
  obtain ⟨icr, hicr, rfl⟩ := hl
  rw [List.mem_map] at htl
  obtain ⟨t0, ht0, rfl⟩ := htl
  simp only [rewriteTask] at hdeps
  cases hdo : t0.depends_on with
  | none =>
    rw [hdo] at hdeps
    simp at hdeps
  | some deps0 =>
    rw [hdo] at hdeps
    simp only [Option.map_some'] at hdeps
    injection hdeps with hdeps
    subst hdeps
    rw [List.mem_map] at hd
    obtain ⟨d0, hd0, rfl⟩ := hd
    exact rewriteDep_prefixed _ _

/-- Re-merging an already-merged result succeeds, and its task list is
the previous task list rewritten under the `chunk0_` namespace. -/
theorem merge_remerge (cfg : ChunkingConfig) (chs chs2 : List Chunk)
    (crs : List ChunkResult) (orig orig2 : List Char) (m : MergedPrompt)
    (h : merge_chunk_results cfg chs crs orig = some (.merged m)) :
    ∃ m2, merge_chunk_results cfg chs2 [chunkResultOfMerged m] orig2 =
        some (.merged m2) ∧
      m2.tasks = m.tasks.map (rewriteTask 0 1) := by
  have hinv := merge_ctxInv cfg chs crs orig m h
  have hsucc : ∃ ctx', ctxMergeAll
      [("chunked", .vbool true), ("total_chunks", .vint 1),
       ("merge_strategy", .vstr cfg.merge_strategy)] m.context =
      some ctx' := by
    apply ctxMergeAll_some
    · intro kv hm hld
      obtain ⟨hn, hs1, hs2, hs3⟩ := hinv
      have hlk : lookupC m.context kv.1 = some kv.2 :=
        NodupKeys_lookupC m.context kv.1 kv.2 hn hm
      by_cases h1 : kv.1 = "chunked"
      · obtain ⟨w, hw, hwk⟩ := hs1
        rw [h1] at hlk
        rw [hlk] at hw
        injection hw with hw
        rw [← hw] at hwk
        rw [hld] at hwk
        exact absurd hwk (by simp)
      · by_cases h2 : kv.1 = "total_chunks"
        · obtain ⟨w, hw, hwk⟩ := hs2
          rw [h2] at hlk
          rw [hlk] at hw
          injection hw with hw
          rw [← hw] at hwk
          rw [hld] at hwk
          exact absurd hwk (by simp)
        · by_cases h3 : kv.1 = "merge_strategy"
          · obtain ⟨w, hw, hwk⟩ := hs3
            rw [h3] at hlk
            rw [hlk] at hw
            injection hw with hw
            rw [← hw] at hwk
            rw [hld] at hwk
            exact absurd hwk (by simp)
          · simp only [lookupC]
            rw [if_neg (fun hc => h1 hc.symm), if_neg (fun hc => h2 hc.symm),
              if_neg (fun hc => h3 hc.symm)]
    · exact hinv.1
  obtain ⟨ctx', hctx'⟩ := hsucc
  have hstep : mergeStep 1 ([],
      [("chunked", .vbool true), ("total_chunks", .vint 1),
       ("merge_strategy", .vstr cfg.merge_strategy)], [])
      (0, chunkResultOfMerged m) =
      some (m.tasks.map (rewriteTask 0 1), ctx', m.deliverables) := by
    unfold mergeStep
    simp only [chunkResultOfMerged]
    rw [hctx']
    simp
  refine ⟨{ version := 1, original := orig2, intent := m.intent,
            tasks := m.tasks.map (rewriteTask 0 1), context := ctx',
            deliverables := m.deliverables.dedup, total_chunks := 1,
            meta_merge_strategy := cfg.merge_strategy,
            chunk_boundaries := chs2.map fun ch =>
              { chunk_id := ch.chunk_id, start_char := ch.start_char,
                end_char := ch.end_char, tokens := ch.estimated_tokens } },
    ?_, rfl⟩
  simp only [merge_chunk_results, List.length_cons, List.length_nil,
    Nat.zero_add, Nat.cast_one]
  have henum : ([chunkResultOfMerged m] : List ChunkResult).enum =
      [(0, chunkResultOfMerged m)] := rfl
  rw [henum, List.foldlM_cons, hstep]
  simp [List.foldlM, chunkResultOfMerged]

/-- **C3 (counterexample).** Task ids are prefixed unconditionally, so
merging an already-merged result double-prefixes them: after two merges
the task id is `chunk0_chunk0_t1` (its dependency reference, which does
carry the `startswith("chunk")` guard, stays `chunk0_t0`). -/
theorem claim_C3_double_prefix_cex :
    c3tasks2 = some (["chunk0_chunk0_t1".toList],
      [some ["chunk0_t0".toList]]) := by
  decide

/-- **C3 (amended).** `merge_chunk_results` namespaces every task of
chunk `i` by prefixing its id with `chunk<i>_` *unconditionally* and
rewrites each `depends_on` reference the same way except that references
already starting with `chunk` are left untouched.  Consequently a second
merge over an already-merged result leaves every dependency reference
unchanged (the dependency rewrite is idempotent), but task ids are
prefixed again (double-prefixed). -/
theorem claim_C3_merge_namespacing :
    (∀ (cfg : ChunkingConfig) (chs : List Chunk) (crs : List ChunkResult)
       (orig : List Char) (m : MergedPrompt),
      merge_chunk_results cfg chs crs orig = some (.merged m) →
      m.tasks = (crs.enum.map fun icr =>
        icr.2.tasks.map (rewriteTask icr.1 crs.length)).flatten) ∧
    (∀ (cfg : ChunkingConfig) (chs : List Chunk) (crs : List ChunkResult)
       (orig : List Char) (m : MergedPrompt),
      merge_chunk_results cfg chs crs orig = some (.merged m) →
      ∀ t ∈ m.tasks, ∀ deps, t.depends_on = some deps →
        ∀ d ∈ deps, "chunk".toList.isPrefixOf d = true) ∧
    (∀ (cfg : ChunkingConfig) (chs chs2 : List Chunk)
       (crs : List ChunkResult) (orig orig2 : List Char) (m : MergedPrompt),
      merge_chunk_results cfg chs crs orig = some (.merged m) →
      ∃ m2, merge_chunk_results cfg chs2 [chunkResultOfMerged m] orig2 =
          some (.merged m2) ∧
        m2.tasks.map MTask.depends_on = m.tasks.map MTask.depends_on ∧
        m2.tasks.map MTask.id =
          m.tasks.map (fun t => "chunk0_".toList ++ t.id)) := by
  refine ⟨merge_tasks_eq, merge_deps_prefixed, ?_⟩
  intro cfg chs chs2 crs orig orig2 m h
  obtain ⟨m2, hm2, htasks2⟩ := merge_remerge cfg chs chs2 crs orig orig2 m h
  refine ⟨m2, hm2, ?_, ?_⟩
  · rw [htasks2, List.map_map]
    apply List.map_congr_left
    intro t ht
    show (rewriteTask 0 1 t).depends_on = t.depends_on
    simp only [rewriteTask]
    cases hdo : t.depends_on with
    | none => rfl
    | some deps =>
      simp only [Option.map_some']
      congr 1
      conv_rhs => rw [← List.map_id deps]
      apply List.map_congr_left
      intro d hd
      show rewriteDep 0 d = d
      unfold rewriteDep
      rw [if_pos (merge_deps_prefixed cfg chs crs orig m h t ht deps hdo
        d hd)]
  · rw [htasks2, List.map_map]
    apply List.map_congr_left
    intro t ht
    show (rewriteTask 0 1 t).id = "chunk0_".toList ++ t.id
    simp only [rewriteTask]
    exact prefixId_zero t.id

/-- Witness for C3: applying the amended theorem to the concrete merged
result of `[c3res]`. -/
theorem claim_C3_merge_namespacing_witness :
    (merge_chunk_results {} [] [c3res] "o".toList = some (.merged c3m1)) ∧
    (∃ m2, merge_chunk_results {} [] [chunkResultOfMerged c3m1]
        "o".toList = some (.merged m2) ∧
      m2.tasks.map MTask.depends_on = c3m1.tasks.map MTask.depends_on ∧
      m2.tasks.map MTask.id =
        c3m1.tasks.map (fun t => "chunk0_".toList ++ t.id)) :=
  ⟨rfl, claim_C3_merge_namespacing.2.2 {} [] [] [c3res] "o".toList
    "o".toList c3m1 rfl⟩

/-! ### Break-point search lemmas -/

theorem findIterAux_mem_bound (pat : List Char) :
    ∀ (fuel : Nat) (s : List Char) (i m : Nat),
      m ∈ findIterAux pat fuel s i → i ≤ m ∧ m + pat.length ≤ i + s.length := by
  intro fuel
  induction fuel with
  | zero => intro s i m hm; simp [findIterAux] at hm
  | succ f ih =>
    intro s i m hm
    cases s with
    | nil => simp [findIterAux] at hm
    | cons c t =>
      simp only [findIterAux] at hm
      split at hm
      case isTrue hpre =>
        have hplen : pat.length ≤ (c :: t).length :=
          (List.isPrefixOf_iff_prefix.mp hpre).length_le
        rcases List.mem_cons.mp hm with rfl | hm'
        · constructor
          · exact le_refl _
          · omega
        · have := ih _ _ _ hm'
          rw [List.length_drop] at this
          omega
      case isFalse hpre =>
        have := ih _ _ _ hm
        simp only [List.length_cons] at *
        omega

theorem candidates_bound (text : List Char) (t ms : Nat)
    (po : List Char × Nat) (hpo : po ∈ break_patterns) :
    ∀ pd ∈ candidates text t ms po,
      1 ≤ pd.1 ∧ pd.1 ≤ (searchRegion text t ms).length := by
  have hoff : 1 ≤ po.2 ∧ po.2 ≤ po.1.length := by
    simp only [break_patterns, List.mem_cons, List.not_mem_nil, or_false]
      at hpo
    rcases hpo with rfl | rfl | rfl | rfl | rfl <;> constructor <;> decide
  intro pd hpd
  simp only [candidates, List.mem_map] at hpd
  obtain ⟨m, hm, rfl⟩ := hpd
  have hb := findIterAux_mem_bound po.1 _ _ _ _ hm
  simp only at hb ⊢
  omega

theorem updateBestStep_isSome (b : Option (Nat × Nat)) (pd : Nat × Nat) :
    (updateBestStep b pd).isSome := by
  cases b with
  | none => rfl
  | some pd0 =>
    obtain ⟨p0, d0⟩ := pd0
    by_cases h : pd.2 < d0 <;> simp [updateBestStep, h]

theorem updateBestStep_prov (b : Option (Nat × Nat)) (pd r : Nat × Nat)
    (h : updateBestStep b pd = some r) : r = pd ∨ b = some r := by
  cases b with
  | none =>
    injection h with h
    exact Or.inl h.symm
  | some pd0 =>
    obtain ⟨p0, d0⟩ := pd0
    by_cases hc : pd.2 < d0
    · simp only [updateBestStep, hc, if_true] at h
      injection h with h
      exact Or.inl h.symm
    · simp only [updateBestStep, hc, if_false] at h
      injection h with h
      exact Or.inr (by rw [h])

theorem updateBestStep_le_new (b : Option (Nat × Nat)) (pd r : Nat × Nat)
    (h : updateBestStep b pd = some r) : r.2 ≤ pd.2 ∨ ∃ p0 d0,
      b = some (p0, d0) ∧ r = (p0, d0) := by
  cases b with
  | none =>
    injection h with h
    exact Or.inl (by rw [← h])
  | some pd0 =>
    obtain ⟨p0, d0⟩ := pd0
    by_cases hc : pd.2 < d0
    · simp only [updateBestStep, hc, if_true] at h
      injection h with h
      exact Or.inl (by rw [← h])
    · simp only [updateBestStep, hc, if_false] at h
      injection h with h
      exact Or.inr ⟨p0, d0, rfl, h.symm⟩

theorem updateBestStep_min (b : Option (Nat × Nat)) (pd r : Nat × Nat)
    (h : updateBestStep b pd = some r) :
    r.2 ≤ pd.2 ∧ (∀ p0 d0, b = some (p0, d0) → r.2 ≤ d0) := by
  cases b with
  | none =>
    injection h with h
    subst h
    exact ⟨le_refl _, by intro p0 d0 hb; simp at hb⟩
  | some pd0 =>
    obtain ⟨p0, d0⟩ := pd0
    by_cases hc : pd.2 < d0
    · simp only [updateBestStep, hc, if_true] at h
      injection h with h
      subst h
      refine ⟨le_refl _, ?_⟩
      intro p1 d1 hb
      injection hb with hb
      have : d1 = d0 := (congrArg Prod.snd hb).symm
      omega
    · simp only [updateBestStep, hc, if_false] at h
      injection h with h
      subst h
      refine ⟨by simp; omega, ?_⟩
      intro p1 d1 hb
      injection hb with hb
      have : d1 = d0 := (congrArg Prod.snd hb).symm
      simp [this]

theorem updateBest_isSome :
    ∀ (cands : List (Nat × Nat)) (best : Option (Nat × Nat)),
      best.isSome ∨ cands ≠ [] → (updateBest best cands).isSome := by
  intro cands
  induction cands with
  | nil =>
    intro best h
    rcases h with h | h
    · simpa [updateBest] using h
    · exact absurd rfl h
  | cons q t ih =>
    intro best _
    show (updateBest (updateBestStep best q) t).isSome
    exact ih (updateBestStep best q) (Or.inl (updateBestStep_isSome best q))

theorem updateBest_some_spec :
    ∀ (cands : List (Nat × Nat)) (best : Option (Nat × Nat))
      (pd : Nat × Nat), updateBest best cands = some pd →
      (best = some pd ∨ pd ∈ cands) ∧ (∀ qd ∈ cands, pd.2 ≤ qd.2) ∧
      (∀ p0 d0, best = some (p0, d0) → pd.2 ≤ d0) := by
  intro cands
  induction cands with
  | nil =>
    intro best pd h
    have hb : best = some pd := h
    refine ⟨Or.inl hb, by simp, ?_⟩
    intro p0 d0 hb0
    rw [hb0] at hb
    injection hb with hb
    rw [← hb]
  | cons q t ih =>
    intro best pd h
    have h' : updateBest (updateBestStep best q) t = some pd := h
    obtain ⟨hprov, hmin, hold⟩ := ih (updateBestStep best q) pd h'
    obtain ⟨st, hst⟩ :=
      Option.isSome_iff_exists.mp (updateBestStep_isSome best q)
    obtain ⟨sp, sd⟩ := st
    refine ⟨?_, ?_, ?_⟩
    · rcases hprov with hp | hp
      · rcases updateBestStep_prov best q pd hp with rfl | hb
        · exact Or.inr (List.mem_cons_self _ _)
        · exact Or.inl hb
      · exact Or.inr (List.mem_cons_of_mem _ hp)
    · intro qd hqd
      rcases List.mem_cons.mp hqd with rfl | hq
      · have h1 := hold sp sd hst
        have h2 := (updateBestStep_min best qd ⟨sp, sd⟩ hst).1
        simp only at h2
        omega
      · exact hmin qd hq
    · intro p0 d0 hb
      have h1 := hold sp sd hst
      have h2 := (updateBestStep_min best q ⟨sp, sd⟩ hst).2 p0 d0 hb
      simp only at h2
      omega

theorem fbGo_bound (text : List Char) (t ms : Nat) :
    ∀ (ps : List (List Char × Nat)) (best : Option (Nat × Nat)),
      (∀ po ∈ ps, po ∈ break_patterns) →
      (∀ p d, best = some (p, d) →
        1 ≤ p ∧ p ≤ (searchRegion text t ms).length) →
      fbGo text t ms ps best = t ∨
        (searchStartOf t ms < fbGo text t ms ps best ∧
         fbGo text t ms ps best ≤
           searchStartOf t ms + (searchRegion text t ms).length) := by
  intro ps
  induction ps with
  | nil => intro best _ _; exact Or.inl rfl
  | cons po rest ih =>
    intro best hps hb
    have hpo : po ∈ break_patterns := hps po (List.mem_cons_self _ _)
    cases hu : updateBest best (candidates text t ms po) with
    | none =>
      simp only [fbGo, hu]
      exact ih none (fun q hq => hps q (List.mem_cons_of_mem _ hq))
        (by intro p d h; simp at h)
    | some pd =>
      obtain ⟨p, d⟩ := pd
      obtain ⟨hprov, -, -⟩ := updateBest_some_spec _ best (p, d) hu
      have hbnd : 1 ≤ p ∧ p ≤ (searchRegion text t ms).length := by
        rcases hprov with hp | hp
        · exact hb p d hp
        · have := candidates_bound text t ms po hpo (p, d) hp
          simpa using this
      by_cases hd : d < ms / 4
      · simp only [fbGo, hu, hd, if_true]
        right
        omega
      · simp only [fbGo, hu, hd, if_false]
        refine ih (some (p, d))
          (fun q hq => hps q (List.mem_cons_of_mem _ hq)) ?_
        intro p' d' h
        injection h with h
        have : p' = p := (congrArg Prod.fst h).symm
        omega

theorem find_break_point_bound (text : List Char) (t ms : Nat) :
    find_break_point text t ms = t ∨
      (searchStartOf t ms < find_break_point text t ms ∧
       find_break_point text t ms ≤
         searchStartOf t ms + (searchRegion text t ms).length) :=
  fbGo_bound text t ms break_patterns none (fun _ h => h)
    (by intro p d h; simp at h)

theorem fbGo_no_qual (text : List Char) (t ms : Nat) :
    ∀ (ps : List (List Char × Nat)) (best : Option (Nat × Nat)),
      (∀ po ∈ ps, ∀ pd ∈ candidates text t ms po, ms / 4 ≤ pd.2) →
      (∀ p d, best = some (p, d) → ms / 4 ≤ d) →
      fbGo text t ms ps best = t := by
  intro ps
  induction ps with
  | nil => intro best _ _; rfl
  | cons po rest ih =>
    intro best h1 hb
    cases hu : updateBest best (candidates text t ms po) with
    | none =>
      simp only [fbGo, hu]
      exact ih none (fun q hq => h1 q (List.mem_cons_of_mem _ hq))
        (by intro p d h; simp at h)
    | some pd =>
      obtain ⟨p, d⟩ := pd
      obtain ⟨hprov, -, -⟩ := updateBest_some_spec _ best (p, d) hu
      have hd : ms / 4 ≤ d := by
        rcases hprov with hp | hp
        · exact hb p d hp
        · exact h1 po (List.mem_cons_self _ _) (p, d) hp
      simp only [fbGo, hu, Nat.not_lt.mpr hd, if_false]
      refine ih (some (p, d))
        (fun q hq => h1 q (List.mem_cons_of_mem _ hq)) ?_
      intro p' d' h
      injection h with h
      have : d' = d := (congrArg Prod.snd h).symm
      omega

theorem fbGo_first_qual (text : List Char) (t ms : Nat) :
    ∀ (ps : List (List Char × Nat)) (best : Option (Nat × Nat)) (k : Nat)
      (hk : k < ps.length),
      (∃ pd ∈ candidates text t ms ps[k], pd.2 < ms / 4) →
      (∀ j (hj : j < ps.length), j < k →
        ∀ pd ∈ candidates text t ms ps[j], ms / 4 ≤ pd.2) →
      (∀ p d, best = some (p, d) → ms / 4 ≤ d) →
      ∃ p d, (p, d) ∈ candidates text t ms ps[k] ∧ d < ms / 4 ∧
        (∀ qd ∈ candidates text t ms ps[k], d ≤ qd.2) ∧
        fbGo text t ms ps best = searchStartOf t ms + p := by
  intro ps
  induction ps with
  | nil => intro best k hk; exact absurd hk (by simp)
  | cons po rest ih =>
    intro best k hk hq hmin hb
    cases k with
    | zero =>
      simp only [List.getElem_cons_zero] at hq ⊢
      obtain ⟨qd, hqd, hqlt⟩ := hq
      have hne : candidates text t ms po ≠ [] := List.ne_nil_of_mem hqd
      obtain ⟨pd, hu⟩ := Option.isSome_iff_exists.mp
        (updateBest_isSome _ best (Or.inr hne))
      obtain ⟨p, d⟩ := pd
      obtain ⟨hprov, hminc, hold⟩ := updateBest_some_spec _ best (p, d) hu
      have hd : d < ms / 4 := lt_of_le_of_lt (hminc qd hqd) hqlt
      have hpc : (p, d) ∈ candidates text t ms po := by
        rcases hprov with hp | hp
        · exact absurd (hb p d hp) (by omega)
        · exact hp
      refine ⟨p, d, hpc, hd, hminc, ?_⟩
      simp only [fbGo, hu, hd, if_true]
    | succ k' =>
      have h0 : ∀ pd ∈ candidates text t ms po, ms / 4 ≤ pd.2 :=
        hmin 0 (by simp) (Nat.succ_pos k')
      have hk' : k' < rest.length := by
        simpa using hk
      have hq' : ∃ pd ∈ candidates text t ms rest[k'], pd.2 < ms / 4 := by
        simpa using hq
      have hmin' : ∀ j (hj : j < rest.length), j < k' →
          ∀ pd ∈ candidates text t ms rest[j], ms / 4 ≤ pd.2 := by
        intro j hj hjk pd hpd
        have := hmin (j + 1) (by simpa using Nat.succ_lt_succ hj)
          (Nat.succ_lt_succ hjk) pd
        simpa using this hpd
      cases hu : updateBest best (candidates text t ms po) with
      | none =>
        obtain ⟨p, d, hpc, hd, hminc, hres⟩ := ih none k' hk' hq' hmin'
          (by intro p d h; simp at h)
        refine ⟨p, d, by simpa using hpc, hd, by simpa using hminc, ?_⟩
        simp only [fbGo, hu]
        exact hres
      | some pd =>
        obtain ⟨p, d⟩ := pd
        obtain ⟨hprov, -, -⟩ := updateBest_some_spec _ best (p, d) hu
        have hd : ms / 4 ≤ d := by
          rcases hprov with hp | hp
          · exact hb p d hp
          · exact h0 (p, d) hp
        have hb' : ∀ p' d', (some (p, d) : Option (Nat × Nat)) =
            some (p', d') → ms / 4 ≤ d' := by
          intro p' d' h
          injection h with h
          have : d' = d := (congrArg Prod.snd h).symm
          omega
        obtain ⟨p', d', hpc, hd', hminc, hres⟩ := ih (some (p, d)) k' hk'
          hq' hmin' hb'
        refine ⟨p', d', by simpa using hpc, hd', by simpa using hminc, ?_⟩
        simp only [fbGo, hu, Nat.not_lt.mpr hd, if_false]
        exact hres

theorem searchRegion_length (text : List Char) (t ms : Nat) :
    (searchRegion text t ms).length =
      searchEndOf text.length t ms - searchStartOf t ms := by
  simp only [searchRegion, slice, List.length_take, List.length_drop]
  unfold searchEndOf searchStartOf
  omega

/-- Bounds of one loop iteration's cut and overlap: the cut moves
strictly forward, stays inside the text, and leaves room for the
overlap. -/
theorem cut_bounds (text : List Char) (csc oc start : Nat)
    (h2 : 2 * oc + 2 ≤ csc) (hs : start < text.length) :
    start < cutOf text csc start ∧ cutOf text csc start ≤ text.length ∧
    overlapOf text oc (cutOf text csc start) ≤ cutOf text csc start - start ∧
    start < cutOf text csc start - overlapOf text oc (cutOf text csc start)
    := by
  simp only [cutOf]
  by_cases hend : min (start + csc) text.length < text.length
  · have hlt : start + csc < text.length := by omega
    have hmin : min (start + csc) text.length = start + csc := by omega
    rw [hmin, if_pos hlt]
    have hb := find_break_point_bound text (start + csc) csc
    have hss : searchStartOf (start + csc) csc = start + (csc - csc / 2) := by
      unfold searchStartOf
      omega
    have hreg := searchRegion_length text (start + csc) csc
    have hse : searchEndOf text.length (start + csc) csc ≤ text.length := by
      unfold searchEndOf
      omega
    have hsse : searchStartOf (start + csc) csc ≤
        searchEndOf text.length (start + csc) csc := by
      unfold searchStartOf searchEndOf
      omega
    have hoc2 : oc + 1 ≤ csc / 2 := by omega
    have hr : start + oc + 2 ≤ find_break_point text (start + csc) csc ∧
        find_break_point text (start + csc) csc ≤ text.length := by
      rcases hb with hb | ⟨hb1, hb2⟩
      · rw [hb]
        omega
      · rw [hss] at hb1
        rw [hreg] at hb2
        constructor
        · have : csc - csc / 2 ≥ oc + 1 := by omega
          omega
        · omega
    unfold overlapOf
    by_cases hrl : find_break_point text (start + csc) csc < text.length
    · rw [if_pos hrl]
      omega
    · rw [if_neg hrl]
      omega
  · have hm : min (start + csc) text.length = text.length := by omega
    rw [if_neg hend, hm]
    unfold overlapOf
    rw [if_neg (lt_irrefl _)]
    omega

/-- The chars-per-token ratio is at least the 1.3 fallback. -/
theorem chars_per_token_ge (prompt : List Char) :
    (13 : ℚ) / 10 ≤ chars_per_token prompt := by
  unfold chars_per_token
  by_cases h : estimate_tokens prompt > 0
  · simp only [h, if_true]
    have hTle : 13 * estimate_tokens prompt ≤ prompt.length * 10 := by
      unfold estimate_tokens
      omega
    rw [div_le_div_iff₀ (by norm_num) (by exact_mod_cast h)]
    exact_mod_cast hTle
  · simp [h]

/-- With default configuration, twice the overlap plus two never exceeds
the chunk size: the loop always advances. -/
theorem chunk_params_le (prompt : List Char) :
    2 * overlap_chars {} prompt + 2 ≤ chunk_size_chars {} prompt := by
  have hq := chars_per_token_ge prompt
  set q := chars_per_token prompt with hqdef
  have hq0 : (0 : ℚ) ≤ q := by linarith
  unfold overlap_chars chunk_size_chars
  have h5 : ((({} : ChunkingConfig).overlap_tokens : ℚ)) = 5000 := by
    norm_num [ChunkingConfig.overlap_tokens]
  have h50 : ((({} : ChunkingConfig).chunk_size_tokens : ℚ)) = 50000 := by
    norm_num [ChunkingConfig.chunk_size_tokens]
  rw [← hqdef, h5, h50]
  have hofl : (0 : ℤ) ≤ ⌊(5000 : ℚ) * q⌋ :=
    Int.floor_nonneg.mpr (by positivity)
  have hcfl : (0 : ℤ) ≤ ⌊(50000 : ℚ) * q⌋ :=
    Int.floor_nonneg.mpr (by positivity)
  have hoc : ((⌊(5000 : ℚ) * q⌋.toNat : ℤ) : ℚ) ≤ 5000 * q := by
    rw [Int.toNat_of_nonneg hofl]
    exact Int.floor_le _
  have hcs : (50000 : ℚ) * q - 1 < ((⌊(50000 : ℚ) * q⌋.toNat : ℤ) : ℚ) := by
    rw [Int.toNat_of_nonneg hcfl]
    have := Int.lt_floor_add_one ((50000 : ℚ) * q)
    linarith
  have hmain : (2 * ⌊(5000 : ℚ) * q⌋.toNat + 2 : ℚ) <
      (⌊(50000 : ℚ) * q⌋.toNat : ℚ) + 1 := by
    push_cast at hoc hcs ⊢
    nlinarith
  have : (2 * ⌊(5000 : ℚ) * q⌋.toNat + 2 : Nat) <
      ⌊(50000 : ℚ) * q⌋.toNat + 1 := by
    exact_mod_cast hmain
  omega

theorem slice_append (s : List Char) (a m b : Nat) (h1 : a ≤ m)
    (h2 : m ≤ b) : slice s a m ++ slice s m b = slice s a b := by
  unfold slice
  rw [show s.drop m = (s.drop a).drop (m - a) by
    rw [List.drop_drop]; congr 1; omega]
  rw [← List.take_add]
  congr 1
  omega

theorem slice_length (s : List Char) (a b : Nat) (hb : b ≤ s.length)
    (hab : a ≤ b) : (slice s a b).length = b - a := by
  simp only [slice, List.length_take, List.length_drop]
  omega

theorem slice_all (s : List Char) : slice s 0 s.length = s := by
  simp [slice]

theorem slice_take_sub (text : List Char) (start cut ov : Nat)
    (h1 : start ≤ cut) (h2 : cut ≤ text.length) (h3 : ov ≤ cut - start) :
    (slice text start cut).take ((slice text start cut).length - ov) =
      slice text start (cut - ov) := by
  rw [slice_length text start cut h2 h1]
  unfold slice
  rw [List.take_take]
  congr 1
  omega

/-- Full specification of the chunking loop: with fuel above the
remaining character count it terminates, the chunk chain is aligned with
exact overlaps, and the overlap-stripped contents rebuild the remaining
text. -/
theorem chunkLoop_spec (text : List Char) (csc oc : Nat)
    (h2 : 2 * oc + 2 ≤ csc) :
    ∀ (fuel start cid : Nat), text.length - start < fuel →
    ∃ cs, chunkLoop text csc oc fuel start cid = some cs ∧
      chainOK cs ∧
      (cs.map dropOverlap).flatten = slice text start text.length ∧
      (∀ c0, cs.head? = some c0 → c0.start_char = start) ∧
      (start < text.length → cs ≠ []) := by
  intro fuel
  induction fuel with
  | zero => intro start cid h; omega
  | succ f ih =>
    intro start cid hfuel
    by_cases hs : start < text.length
    · obtain ⟨hc1, hc2, hc3, hc4⟩ := cut_bounds text csc oc start h2 hs
      have hnext : text.length -
          (cutOf text csc start - overlapOf text oc (cutOf text csc start))
          < f := by omega
      obtain ⟨rest, hrest, hchain, hjoin, hhead, hne⟩ :=
        ih (cutOf text csc start - overlapOf text oc (cutOf text csc start))
          (cid + 1) hnext
      refine ⟨{ chunk_id := cid,
                content := slice text start (cutOf text csc start),
                start_char := start,
                end_char := cutOf text csc start,
                overlap_with_next := overlapOf text oc (cutOf text csc start),
                estimated_tokens :=
                  estimate_tokens (slice text start (cutOf text csc start)),
                char_count := (slice text start (cutOf text csc start)).length,
                is_first := cid == 0,
                is_last := decide (text.length ≤ cutOf text csc start) }
        :: rest, ?_, ?_, ?_, ?_, ?_⟩
      · simp only [chunkLoop, if_pos hs, hrest, Option.map_some']
      · cases rest with
        | nil =>
          have hnl : ¬(cutOf text csc start -
              overlapOf text oc (cutOf text csc start) < text.length) := by
            intro hcon
            exact hne hcon rfl
          have hov0 : overlapOf text oc (cutOf text csc start) = 0 := by
            omega
          simpa [chainOK] using hov0
        | cons c' rest' =>
          refine ⟨?_, hchain⟩
          exact (hhead c' rfl).symm
      · simp only [List.map_cons, List.flatten_cons]
        rw [hjoin]
        simp only [dropOverlap]
        rw [slice_take_sub text start (cutOf text csc start)
          (overlapOf text oc (cutOf text csc start)) (by omega) hc2 hc3]
        exact slice_append text start _ text.length (by omega) (by omega)
      · intro c0 h
        injection h with h
        rw [← h]
      · intro _
        simp
    · refine ⟨[], ?_, trivial, ?_, ?_, ?_⟩
      · simp [chunkLoop, hs]
      · simp only [List.map_nil, List.flatten_nil]
        unfold slice
        rw [show text.length - start = 0 by omega]
        simp
      · intro c0 h
        simp at h
      · intro h
        omega

/-- **C4.** With the default configuration, every loop iteration of
`create_chunks` chooses a cut strictly beyond the chunk's start and a
strictly larger next start offset, and the loop always terminates. -/
theorem claim_C4_create_chunks_terminates :
    ∀ prompt : List Char,
      (∀ start, start < prompt.length →
        start < cutOf prompt (chunk_size_chars {} prompt) start ∧
        start < nextStartOf prompt (chunk_size_chars {} prompt)
          (overlap_chars {} prompt) start) ∧
      (∃ chunks, create_chunks {} prompt = some chunks) := by
  intro prompt
  have h2 := chunk_params_le prompt
  constructor
  · intro start hstart
    obtain ⟨hc1, -, -, hc4⟩ := cut_bounds prompt _ _ start h2 hstart
    exact ⟨hc1, hc4⟩
  · obtain ⟨cs, heq, -, -, -, -⟩ :=
      chunkLoop_spec prompt _ _ h2 (prompt.length + 1) 0 0 (by omega)
    exact ⟨cs, heq⟩

/-- Witness for C4: on the two-character prompt `"ab"`, from start 0 the
cut and the next start are both strictly positive. -/
theorem claim_C4_create_chunks_terminates_witness :
    (0 < ("ab".toList).length) ∧
    (0 < cutOf "ab".toList (chunk_size_chars {} "ab".toList) 0 ∧
     0 < nextStartOf "ab".toList (chunk_size_chars {} "ab".toList)
       (overlap_chars {} "ab".toList) 0) :=
  ⟨by decide, (claim_C4_create_chunks_terminates "ab".toList).1 0 (by decide)⟩

/-- **C7.** With the default configuration, `create_chunks` produces a
chain where every non-final chunk's `end_char - overlap_with_next` equals
the next chunk's `start_char`, the final chunk has zero overlap, and
concatenating the chunks' contents with their trailing overlaps removed
rebuilds the input exactly. -/
theorem claim_C7_chunk_reconstruction :
    ∀ prompt : List Char, ∃ chunks,
      create_chunks {} prompt = some chunks ∧ chainOK chunks ∧
      (chunks.map dropOverlap).flatten = prompt := by
  intro prompt
  have h2 := chunk_params_le prompt
  obtain ⟨cs, heq, hchain, hjoin, -, -⟩ :=
    chunkLoop_spec prompt _ _ h2 (prompt.length + 1) 0 0 (by omega)
  refine ⟨cs, heq, hchain, ?_⟩
  rw [hjoin]
  exact slice_all prompt

/-- **C9.** `_find_break_point`'s tie-break contract: if tier `k` is the
highest-priority delimiter tier with a finditer match whose resulting
position lies within `max_search // 4` of the (window-relative) target,
the returned position is `search_start` plus a match position of tier
`k` that is closest to the target among tier `k`'s matches — a
lower-priority tier never wins over it; and if no tier has a match
within the tolerance, the function returns exactly the target position. -/
theorem claim_C9_break_point_priority :
    (∀ (text : List Char) (target_pos max_search k : Nat)
       (hk : k < break_patterns.length),
      (∃ pd ∈ candidates text target_pos max_search break_patterns[k],
        pd.2 < max_search / 4) →
      (∀ j (hj : j < break_patterns.length), j < k →
        ∀ pd ∈ candidates text target_pos max_search break_patterns[j],
          max_search / 4 ≤ pd.2) →
      ∃ p d, (p, d) ∈ candidates text target_pos max_search
          break_patterns[k] ∧ d < max_search / 4 ∧
        (∀ qd ∈ candidates text target_pos max_search break_patterns[k],
          d ≤ qd.2) ∧
        find_break_point text target_pos max_search =
          searchStartOf target_pos max_search + p) ∧
    (∀ (text : List Char) (target_pos max_search : Nat),
      (∀ k (hk : k < break_patterns.length),
        ∀ pd ∈ candidates text target_pos max_search break_patterns[k],
          max_search / 4 ≤ pd.2) →
      find_break_point text target_pos max_search = target_pos) := by
  constructor
  · intro text t ms k hk hq hmin
    exact fbGo_first_qual text t ms break_patterns none k hk hq hmin
      (by intro p d h; simp at h)
  · intro text t ms h
    refine fbGo_no_qual text t ms break_patterns none ?_
      (by intro p d hc; simp at hc)
    intro po hpo pd hpd
    obtain ⟨⟨k, hk⟩, hget⟩ := List.mem_iff_get.mp hpo
    refine h k hk pd ?_
    rw [List.get_eq_getElem] at hget
    rw [hget]
    exact hpd

/-- Witness for C9: in `"aaaa\n\nbbbb"` with target 5 and window 8, the
paragraph tier (tier 0) has a match at distance 1 < 2 and wins. -/
theorem claim_C9_break_point_priority_witness :
    ((0 < break_patterns.length) ∧
     (∃ pd ∈ candidates "aaaa\n\nbbbb".toList 5 8 break_patterns[0],
       pd.2 < 8 / 4)) ∧
    (∃ p d, (p, d) ∈ candidates "aaaa\n\nbbbb".toList 5 8
        break_patterns[0] ∧ d < 8 / 4 ∧
      (∀ qd ∈ candidates "aaaa\n\nbbbb".toList 5 8 break_patterns[0],
        d ≤ qd.2) ∧
      find_break_point "aaaa\n\nbbbb".toList 5 8 =
        searchStartOf 5 8 + p) :=
  ⟨⟨by decide, by decide⟩,
   claim_C9_break_point_priority.1 "aaaa\n\nbbbb".toList 5 8 0 (by decide)
     (by decide)
     (fun j hj hj0 pd hpd => absurd hj0 (Nat.not_lt_zero j))⟩

end Loom
